import Mathlib

/-!
# Verification of `parse_line_delimited` (src/delimited_line.cpp)

A shallow embedding of the single-pass field splitter and the properties its
specification states about it.

Modelling conventions.

* A `std::string` is a list of bytes (`Byte = Fin 256`); a `std::istringstream`
  over it is the list of bytes not yet extracted.  Once the list is empty every
  `get()` and `peek()` returns `EOF`, and the stream stays at end of input.
* `stream.peek()` returns an `int`: the next byte as a value `0..255`, or
  `EOF = -1`.  The source compares that `int` with a `char` (`delim`, `quote`),
  which is promoted to `int` first.  Whether `char` is signed is
  implementation-defined (signed on x86-64, unsigned on AArch64 Linux), so the
  embedding takes it as the parameter `signedChar`.
* The loops of the source are embedded with a fuel argument: `none` means the
  fuel ran out.  Results are stated for every fuel larger than the length of
  the line.
* `Rcpp::stop(msg)` is `Except.error msg`.
-/

namespace DelimitedLine

/-- One `char` of a `std::string`, as its byte value. -/
abbrev Byte := Fin 256

/-- The value `EOF` returned by `get()` and `peek()` at end of input. -/
def EOF : Int := -1

/-- Integral promotion of a `char` to `int`, as it happens in
`stream.peek() == delim`. -/
def charToInt (signedChar : Bool) (c : Byte) : Int :=
  if signedChar && decide (128 ≤ c.val) then (c.val : Int) - 256 else (c.val : Int)

/-- Result of `stream.peek()`: the next byte as a non-negative `int`, or `EOF`. -/
def peek : List Byte → Int
  | [] => EOF
  | c :: _ => (c.val : Int)

/-- Stream left by `stream.get()`: one byte is extracted, or the stream stays at
end of input. -/
def advance : List Byte → List Byte
  | [] => []
  | _ :: rest => rest

/-- First character `s[0]` of a `std::string`; for the empty string this is the
terminating NUL. -/
def firstChar : List Byte → Byte
  | [] => 0
  | c :: _ => c

/-- Code of the backslash character. -/
def backslash : Byte := 92

/-- The loop `while (stream.peek() == delim) stream.get();` (lines 26-27). -/
def skipDelims (signedChar : Bool) (delim : Byte) : Nat → List Byte → Option (List Byte)
  | 0, _ => none
  | fuel + 1, s =>
    if peek s = charToInt signedChar delim then
      skipDelims signedChar delim fuel (advance s)
    else
      some s

/-- Code after the main loop (lines 54-62). -/
def finish (strict : Bool) (field : List Byte) (out : List (List Byte)) (in_string : Bool) :
    Except String (List (List Byte)) :=
  if strict && in_string then
    Except.error "Unterminated string"
  else if field ≠ [] then
    Except.ok (out ++ [field])
  else
    Except.ok out

/-- The main loop (lines 23-53) followed by the code after it.  The arguments
`s`, `field`, `out` and `in_string` are the stream and the three local
variables at the loop test. -/
def scan (signedChar : Bool) (delim quote : Byte)
    (collapse backslash_escape double_escape strict : Bool) :
    Nat → List Byte → List Byte → List (List Byte) → Bool →
      Option (Except String (List (List Byte)))
  | 0, _, _, _, _ => none
  | _ + 1, [], field, out, in_string =>
    -- `stream.get()` fails: `stream.good()` is false
    some (finish strict field out in_string)
  | fuel + 1, c :: rest, field, out, in_string =>
    if c = 0 then
      -- `(c = stream.get())` is false
      some (finish strict field out in_string)
    else if !in_string && decide (c = delim) then
      match (if collapse then skipDelims signedChar delim fuel rest else some rest) with
      | none => none
      | some rest1 =>
        let out1 := out ++ [field]
        let out2 := if peek rest1 = EOF then out1 ++ [[]] else out1
        scan signedChar delim quote collapse backslash_escape double_escape strict
          fuel rest1 [] out2 in_string
    else if c = quote then
      if double_escape && decide (peek rest = charToInt signedChar quote) then
        scan signedChar delim quote collapse backslash_escape double_escape strict
          fuel (advance rest) (field ++ [quote]) out in_string
      else
        scan signedChar delim quote collapse backslash_escape double_escape strict
          fuel rest field out (!in_string)
    else if backslash_escape && decide (c = backslash) then
      match rest with
      | [] =>
        if strict then some (Except.error "Unterminated escape")
        else
          scan signedChar delim quote collapse backslash_escape double_escape strict
            fuel [] field out in_string
      | e :: rest1 =>
        scan signedChar delim quote collapse backslash_escape double_escape strict
          fuel rest1 (field ++ [e]) out in_string
    else
      scan signedChar delim quote collapse backslash_escape double_escape strict
        fuel rest (field ++ [c]) out in_string

/-- The function `parse_line_delimited` (lines 6-63). -/
def parse_line_delimited (signedChar : Bool) (fuel : Nat) (x delim_ quote_ : List Byte)
    (collapse backslash_escape double_escape strict : Bool) :
    Option (Except String (List (List Byte))) :=
  scan signedChar (firstChar delim_) (firstChar quote_)
    collapse backslash_escape double_escape strict fuel x [] [] false

/-- Naive split of a line on a separator character, as the specification words
it: the maximal separator-free segments of the line, in order.  This
definition follows the specification, not the source. -/
def naiveSplit (d : Byte) : List Byte → List (List Byte)
  | [] => [[]]
  | c :: rest =>
    if c = d then [] :: naiveSplit d rest
    else
      match naiveSplit d rest with
      | [] => [[c]]
      | seg :: segs => (c :: seg) :: segs

/-- Bytes of a text literal (code points below 256). -/
def str (s : String) : List Byte :=
  s.toList.map (fun ch => Fin.ofNat ch.toNat)

end DelimitedLine

namespace DelimitedLine

/-! ## Comparison of `peek()` with a `char` -/

theorem charToInt_unsigned (c : Byte) : charToInt false c = (c.val : Int) := by
  simp [charToInt]

theorem charToInt_low (signedChar : Bool) (c : Byte) (h : c.val < 128) :
    charToInt signedChar c = (c.val : Int) := by
  have h1 : ¬ 128 ≤ c.val := by omega
  simp [charToInt, h1]

theorem peek_cons_eq_iff (signedChar : Bool) (d c : Byte) (rest : List Byte) :
    peek (c :: rest) = charToInt signedChar d ↔
      c = d ∧ (signedChar = true → d.val < 128) := by
  have hc := c.isLt
  have hd := d.isLt
  unfold peek charToInt
  cases signedChar
  · simp only [Bool.false_and, Bool.false_eq_true, if_false]
    constructor
    · intro h
      exact ⟨Fin.ext (by exact_mod_cast h), by simp⟩
    · rintro ⟨rfl, _⟩
      rfl
  · by_cases h128 : 128 ≤ d.val
    · simp only [Bool.true_and, decide_eq_true_eq, h128, if_true]
      constructor
      · intro h
        omega
      · rintro ⟨_, h⟩
        have := h trivial
        omega
    · simp only [Bool.true_and, decide_eq_true_eq, h128, if_false]
      constructor
      · intro h
        exact ⟨Fin.ext (by exact_mod_cast h), fun _ => by omega⟩
      · rintro ⟨rfl, _⟩
        rfl

theorem peek_cons_ne (signedChar : Bool) (d c : Byte) (rest : List Byte) (h : c ≠ d) :
    peek (c :: rest) ≠ charToInt signedChar d := by
  intro he
  exact h ((peek_cons_eq_iff signedChar d c rest).1 he).1

theorem peek_nil_eq_iff (signedChar : Bool) (d : Byte) :
    peek [] = charToInt signedChar d ↔ signedChar = true ∧ d.val = 255 := by
  have hd := d.isLt
  unfold peek charToInt EOF
  cases signedChar
  · simp only [Bool.false_and, Bool.false_eq_true, if_false, false_and, iff_false]
    omega
  · by_cases h128 : 128 ≤ d.val
    · simp only [Bool.true_and, decide_eq_true_eq, h128, if_true, true_and]
      omega
    · simp only [Bool.true_and, decide_eq_true_eq, h128, if_false, true_and]
      omega

theorem peek_eq_EOF_iff (s : List Byte) : peek s = EOF ↔ s = [] := by
  cases s with
  | nil => simp [peek]
  | cons c rest =>
    have hc := c.isLt
    simp only [peek, EOF, reduceCtorEq, iff_false]

end DelimitedLine

namespace DelimitedLine

/-! ## The collapse loop -/

theorem skipDelims_stop (signedChar : Bool) (d : Byte) (fuel : Nat) (s : List Byte)
    (hfuel : 0 < fuel) (h : peek s ≠ charToInt signedChar d) :
    skipDelims signedChar d fuel s = some s := by
  obtain ⟨n, rfl⟩ := Nat.exists_eq_succ_of_ne_zero (Nat.pos_iff_ne_zero.1 hfuel)
  simp [skipDelims, h]

theorem skipDelims_replicate (signedChar : Bool) (d : Byte) (k : Nat) :
    ∀ (fuel : Nat) (rest : List Byte), k < fuel → (signedChar = true → d.val < 128) →
      peek rest ≠ charToInt signedChar d →
      skipDelims signedChar d fuel (List.replicate k d ++ rest) = some rest := by
  induction k with
  | zero =>
    intro fuel rest hfuel _ hrest
    simpa using skipDelims_stop signedChar d fuel rest hfuel hrest
  | succ k ih =>
    intro fuel rest hfuel hd hrest
    obtain ⟨n, rfl⟩ := Nat.exists_eq_succ_of_ne_zero (show fuel ≠ 0 by omega)
    have hp : peek (d :: (List.replicate k d ++ rest)) = charToInt signedChar d :=
      (peek_cons_eq_iff signedChar d d _).2 ⟨rfl, hd⟩
    simp only [List.replicate_succ, List.cons_append, skipDelims, hp, if_true, advance]
    exact ih n rest (by omega) hd hrest

/-- At end of input the collapse loop never exits when `EOF` compares equal to
the delimiter. -/
theorem skipDelims_nil_diverges (signedChar : Bool) (d : Byte)
    (h : peek [] = charToInt signedChar d) :
    ∀ fuel : Nat, skipDelims signedChar d fuel [] = none := by
  intro fuel
  induction fuel with
  | zero => rfl
  | succ n ih => simp [skipDelims, h, advance, ih]

/-! ## Single steps of the main loop -/

section Steps

variable (signedChar : Bool) (delim quote : Byte)
  (collapse backslash_escape double_escape strict : Bool)

theorem scan_nil (fuel : Nat) (field : List Byte) (out : List (List Byte)) (in_string : Bool)
    (hfuel : 0 < fuel) :
    scan signedChar delim quote collapse backslash_escape double_escape strict
      fuel [] field out in_string = some (finish strict field out in_string) := by
  obtain ⟨n, rfl⟩ := Nat.exists_eq_succ_of_ne_zero (Nat.pos_iff_ne_zero.1 hfuel)
  simp [scan]

theorem scan_nul (fuel : Nat) (rest field : List Byte) (out : List (List Byte))
    (in_string : Bool) (hfuel : 0 < fuel) :
    scan signedChar delim quote collapse backslash_escape double_escape strict
      fuel (0 :: rest) field out in_string = some (finish strict field out in_string) := by
  obtain ⟨n, rfl⟩ := Nat.exists_eq_succ_of_ne_zero (Nat.pos_iff_ne_zero.1 hfuel)
  simp [scan]

/-- A run of characters that are neither NUL, nor a delimiter outside a quoted
region, nor a quote, nor an escape introducer is appended to the field. -/
theorem scan_plain (in_string : Bool) (s : List Byte) :
    ∀ (fuel : Nat) (rest field : List Byte) (out : List (List Byte)),
      s.length ≤ fuel →
      (∀ c ∈ s, c ≠ 0 ∧ (in_string = false → c ≠ delim) ∧ c ≠ quote ∧
        (backslash_escape = true → c ≠ backslash)) →
      scan signedChar delim quote collapse backslash_escape double_escape strict
        fuel (s ++ rest) field out in_string =
      scan signedChar delim quote collapse backslash_escape double_escape strict
        (fuel - s.length) rest (field ++ s) out in_string := by
  induction s with
  | nil => intro fuel rest field out _ _; simp
  | cons c s ih =>
    intro fuel rest field out hfuel hs
    obtain ⟨n, rfl⟩ := Nat.exists_eq_succ_of_ne_zero
      (show fuel ≠ 0 by simp only [List.length_cons] at hfuel; omega)
    obtain ⟨h0, hd, hq, hb⟩ := hs c (List.mem_cons_self c s)
    have hd1 : (!in_string && decide (c = delim)) = false := by
      cases in_string with
      | true => simp
      | false => simp [hd rfl]
    have hb1 : (backslash_escape && decide (c = backslash)) = false := by
      cases backslash_escape with
      | false => simp
      | true => simp [hb rfl]
    rw [List.cons_append]
    simp only [scan, h0, if_false, hd1, Bool.false_eq_true, hq, hb1]
    rw [ih n rest (field ++ [c]) out (by simp only [List.length_cons] at hfuel; omega)
      (fun x hx => hs x (List.mem_cons_of_mem c hx))]
    simp [List.append_assoc]

/-- A quote that is not the first of a doubled pair toggles the region. -/
theorem scan_toggle (fuel : Nat) (rest field : List Byte) (out : List (List Byte))
    (in_string : Bool) (hfuel : 0 < fuel) (hq0 : quote ≠ 0)
    (hqd : in_string = false → quote ≠ delim)
    (hde : double_escape = true → peek rest ≠ charToInt signedChar quote) :
    scan signedChar delim quote collapse backslash_escape double_escape strict
      fuel (quote :: rest) field out in_string =
    scan signedChar delim quote collapse backslash_escape double_escape strict
      (fuel - 1) rest field out (!in_string) := by
  obtain ⟨n, rfl⟩ := Nat.exists_eq_succ_of_ne_zero (Nat.pos_iff_ne_zero.1 hfuel)
  have hd1 : (!in_string && decide (quote = delim)) = false := by
    cases in_string with
    | true => simp
    | false => simp [hqd rfl]
  have hde1 : (double_escape && decide (peek rest = charToInt signedChar quote)) = false := by
    cases double_escape with
    | false => simp
    | true => simp [hde rfl]
  simp [scan, hq0, hd1, hde1]

/-- A quote outside a quoted region opens one. -/
theorem scan_open (fuel : Nat) (rest field : List Byte) (out : List (List Byte))
    (hfuel : 0 < fuel) (hq0 : quote ≠ 0) (hqd : quote ≠ delim)
    (hde : double_escape = true → peek rest ≠ charToInt signedChar quote) :
    scan signedChar delim quote collapse backslash_escape double_escape strict
      fuel (quote :: rest) field out false =
    scan signedChar delim quote collapse backslash_escape double_escape strict
      (fuel - 1) rest field out true :=
  scan_toggle signedChar delim quote collapse backslash_escape double_escape strict
    fuel rest field out false hfuel hq0 (fun _ => hqd) hde

/-- A quote inside a quoted region closes it. -/
theorem scan_close (fuel : Nat) (rest field : List Byte) (out : List (List Byte))
    (hfuel : 0 < fuel) (hq0 : quote ≠ 0)
    (hde : double_escape = true → peek rest ≠ charToInt signedChar quote) :
    scan signedChar delim quote collapse backslash_escape double_escape strict
      fuel (quote :: rest) field out true =
    scan signedChar delim quote collapse backslash_escape double_escape strict
      (fuel - 1) rest field out false :=
  scan_toggle signedChar delim quote collapse backslash_escape double_escape strict
    fuel rest field out true hfuel hq0 (fun h => Bool.noConfusion h) hde

/-- A quote followed by a second quote, with double escaping enabled, yields one
literal quote and leaves the region unchanged. -/
theorem scan_doubled (fuel : Nat) (rest field : List Byte) (out : List (List Byte))
    (in_string : Bool) (hfuel : 0 < fuel) (hq0 : quote ≠ 0)
    (hqd : in_string = false → quote ≠ delim)
    (hde : double_escape = true) (hp : peek rest = charToInt signedChar quote) :
    scan signedChar delim quote collapse backslash_escape double_escape strict
      fuel (quote :: rest) field out in_string =
    scan signedChar delim quote collapse backslash_escape double_escape strict
      (fuel - 1) (advance rest) (field ++ [quote]) out in_string := by
  obtain ⟨n, rfl⟩ := Nat.exists_eq_succ_of_ne_zero (Nat.pos_iff_ne_zero.1 hfuel)
  have hd1 : (!in_string && decide (quote = delim)) = false := by
    cases in_string with
    | true => simp
    | false => simp [hqd rfl]
  simp [scan, hq0, hd1, hde, hp]

/-- A delimiter outside a quoted region, without collapsing. -/
theorem scan_delim (fuel : Nat) (rest field : List Byte) (out : List (List Byte))
    (hfuel : 0 < fuel) (hd0 : delim ≠ 0) :
    scan signedChar delim quote false backslash_escape double_escape strict
      fuel (delim :: rest) field out false =
    scan signedChar delim quote false backslash_escape double_escape strict
      (fuel - 1) rest [] (if rest = [] then out ++ [field] ++ [[]] else out ++ [field])
      false := by
  obtain ⟨n, rfl⟩ := Nat.exists_eq_succ_of_ne_zero (Nat.pos_iff_ne_zero.1 hfuel)
  simp [scan, hd0, peek_eq_EOF_iff]

/-- A delimiter outside a quoted region, with collapsing, when the collapse
loop exits. -/
theorem scan_delim_collapse (fuel : Nat) (rest rest1 field : List Byte)
    (out : List (List Byte)) (hfuel : 0 < fuel) (hd0 : delim ≠ 0)
    (hskip : skipDelims signedChar delim (fuel - 1) rest = some rest1) :
    scan signedChar delim quote true backslash_escape double_escape strict
      fuel (delim :: rest) field out false =
    scan signedChar delim quote true backslash_escape double_escape strict
      (fuel - 1) rest1 [] (if rest1 = [] then out ++ [field] ++ [[]] else out ++ [field])
      false := by
  obtain ⟨n, rfl⟩ := Nat.exists_eq_succ_of_ne_zero (Nat.pos_iff_ne_zero.1 hfuel)
  have hskip1 : skipDelims signedChar delim n rest = some rest1 := by simpa using hskip
  simp [scan, hd0, hskip1, peek_eq_EOF_iff]

/-- An escape introducer followed by a character appends that character. -/
theorem scan_escape (fuel : Nat) (e : Byte) (rest field : List Byte)
    (out : List (List Byte)) (in_string : Bool) (hfuel : 0 < fuel)
    (hbd : backslash ≠ delim) (hbq : backslash ≠ quote) :
    scan signedChar delim quote collapse true double_escape strict
      fuel (backslash :: e :: rest) field out in_string =
    scan signedChar delim quote collapse true double_escape strict
      (fuel - 1) rest (field ++ [e]) out in_string := by
  obtain ⟨n, rfl⟩ := Nat.exists_eq_succ_of_ne_zero (Nat.pos_iff_ne_zero.1 hfuel)
  have h0 : backslash ≠ (0 : Byte) := by decide
  simp [scan, h0, hbd, hbq]

/-- An escape introducer at end of input. -/
theorem scan_escape_eof (fuel : Nat) (field : List Byte)
    (out : List (List Byte)) (in_string : Bool) (hfuel : 1 < fuel)
    (hbd : backslash ≠ delim) (hbq : backslash ≠ quote) :
    scan signedChar delim quote collapse true double_escape strict
      fuel [backslash] field out in_string =
    if strict then some (Except.error "Unterminated escape")
    else some (finish strict field out in_string) := by
  obtain ⟨n, rfl⟩ := Nat.exists_eq_succ_of_ne_zero (show fuel ≠ 0 by omega)
  obtain ⟨m, rfl⟩ := Nat.exists_eq_succ_of_ne_zero (show n ≠ 0 by omega)
  have h0 : backslash ≠ (0 : Byte) := by decide
  cases strict <;> simp [scan, h0, hbd, hbq]

end Steps

end DelimitedLine

namespace DelimitedLine

/-! ## The naive split -/

theorem naiveSplit_ne_nil (d : Byte) (l : List Byte) : naiveSplit d l ≠ [] := by
  cases l with
  | nil => simp [naiveSplit]
  | cons c rest =>
    unfold naiveSplit
    split
    · simp
    · split <;> simp

theorem naiveSplit_of_not_mem (d : Byte) (l : List Byte) (h : d ∉ l) :
    naiveSplit d l = [l] := by
  induction l with
  | nil => rfl
  | cons c rest ih =>
    have hc : c ≠ d := fun he => h (he ▸ List.mem_cons_self c rest)
    have hr : d ∉ rest := fun hm => h (List.mem_cons_of_mem c hm)
    simp [naiveSplit, hc, ih hr]

theorem naiveSplit_append_cons (d : Byte) (f s : List Byte) (h : d ∉ f) :
    naiveSplit d (f ++ d :: s) = f :: naiveSplit d s := by
  induction f with
  | nil => simp [naiveSplit]
  | cons c rest ih =>
    have hc : c ≠ d := fun he => h (he ▸ List.mem_cons_self c rest)
    have hr : d ∉ rest := fun hm => h (List.mem_cons_of_mem c hm)
    simp [naiveSplit, hc, ih hr]

theorem naiveSplit_length (d : Byte) (l : List Byte) :
    (naiveSplit d l).length = l.count d + 1 := by
  induction l with
  | nil => rfl
  | cons c rest ih =>
    by_cases hc : c = d
    · subst hc
      simp [naiveSplit, ih]
    · have hne := naiveSplit_ne_nil d rest
      have hbeq : (c == d) = false := by simpa using hc
      rw [List.count_cons, hbeq]
      unfold naiveSplit
      rw [if_neg hc]
      cases hsp : naiveSplit d rest with
      | nil => exact absurd hsp hne
      | cons seg segs =>
        rw [hsp] at ih
        simpa using ih

theorem naiveSplit_segments (d : Byte) (l : List Byte) :
    ∀ seg ∈ naiveSplit d l, d ∉ seg := by
  induction l with
  | nil => simp [naiveSplit]
  | cons c rest ih =>
    by_cases hc : c = d
    · subst hc
      intro seg hseg
      simp only [naiveSplit, if_true, List.mem_cons] at hseg
      rcases hseg with rfl | hseg
      · simp
      · exact ih seg hseg
    · have hne := naiveSplit_ne_nil d rest
      unfold naiveSplit
      rw [if_neg hc]
      cases hsp : naiveSplit d rest with
      | nil => exact absurd hsp hne
      | cons seg segs =>
        rw [hsp] at ih
        intro x hx
        simp only [List.mem_cons] at hx
        rcases hx with rfl | hx
        · intro hm
          simp only [List.mem_cons] at hm
          rcases hm with rfl | hm
          · exact hc rfl
          · exact ih seg (List.mem_cons_self seg segs) hm
        · exact ih x (List.mem_cons_of_mem seg hx)

theorem naiveSplit_intercalate (d : Byte) (l : List Byte) :
    List.intercalate [d] (naiveSplit d l) = l := by
  induction l with
  | nil => rfl
  | cons c rest ih =>
    have hne := naiveSplit_ne_nil d rest
    by_cases hc : c = d
    · unfold naiveSplit
      rw [if_pos hc]
      cases hsp : naiveSplit d rest with
      | nil => exact absurd hsp hne
      | cons seg segs =>
        rw [hsp] at ih
        simp only [List.intercalate, List.intersperse, List.flatten] at ih ⊢
        simp [ih, hc]
    · unfold naiveSplit
      rw [if_neg hc]
      cases hsp : naiveSplit d rest with
      | nil => exact absurd hsp hne
      | cons seg segs =>
        rw [hsp] at ih
        cases segs with
        | nil =>
          simp only [List.intercalate, List.intersperse, List.flatten] at ih ⊢
          simp [← ih]
        | cons seg2 segs2 =>
          simp only [List.intercalate, List.intersperse, List.flatten] at ih ⊢
          simp [← ih]

end DelimitedLine

namespace DelimitedLine

theorem naiveSplit_eq_splitOn (d : Byte) (l : List Byte) :
    naiveSplit d l = l.splitOn d := by
  induction l with
  | nil => rfl
  | cons c rest ih =>
    have hne := naiveSplit_ne_nil d rest
    have ih1 : List.splitOnP (fun x => x == d) rest = naiveSplit d rest := ih.symm
    show naiveSplit d (c :: rest) = List.splitOnP (fun x => x == d) (c :: rest)
    rw [List.splitOnP_cons, ih1]
    by_cases hc : c = d
    · simp [naiveSplit, hc]
    · simp only [naiveSplit, hc, if_false, beq_iff_eq]
      cases hsp : naiveSplit d rest with
      | nil => exact absurd hsp hne
      | cons seg segs => rfl

/-! ## Lines without quotes: the scan is the naive split -/

theorem finish_not_in_string (strict : Bool) (field : List Byte) (out : List (List Byte)) :
    finish strict field out false =
      Except.ok (if field = [] then out else out ++ [field]) := by
  by_cases hf : field = [] <;> simp [finish, hf]

theorem scan_unquoted (signedChar : Bool) (d q : Byte)
    (backslash_escape double_escape strict : Bool) (s : List Byte) :
    ∀ (fuel : Nat) (field : List Byte) (out : List (List Byte)),
      s ≠ [] → s.length < fuel → d ∉ field → q ∉ s → (0 : Byte) ∉ s →
      (backslash_escape = true → backslash ∉ s) →
      scan signedChar d q false backslash_escape double_escape strict fuel s field out false =
        some (Except.ok (out ++ naiveSplit d (field ++ s))) := by
  induction s with
  | nil => intro _ _ _ h; exact absurd rfl h
  | cons c s ih =>
    intro fuel field out _ hfuel hdf hq h0 hb
    simp only [List.length_cons] at hfuel
    have hc0 : c ≠ 0 := fun he => h0 (he ▸ List.mem_cons_self c s)
    have hcq : c ≠ q := fun he => hq (he ▸ List.mem_cons_self c s)
    have hqs : q ∉ s := fun hm => hq (List.mem_cons_of_mem c hm)
    have h0s : (0 : Byte) ∉ s := fun hm => h0 (List.mem_cons_of_mem c hm)
    have hbs : backslash_escape = true → backslash ∉ s :=
      fun hbe hm => hb hbe (List.mem_cons_of_mem c hm)
    by_cases hcd : c = d
    · subst hcd
      rw [scan_delim signedChar c q backslash_escape double_escape strict fuel s field out
        (by omega) hc0, naiveSplit_append_cons c field s hdf]
      by_cases hs : s = []
      · subst hs
        rw [if_pos rfl, scan_nil _ _ _ _ _ _ _ _ _ _ _ (by omega), finish_not_in_string]
        simp [naiveSplit]
      · rw [if_neg hs, ih (fuel - 1) [] (out ++ [field]) hs (by omega) (by simp) hqs h0s hbs]
        simp
    · have hplain : ∀ x ∈ [c], x ≠ 0 ∧ (false = false → x ≠ d) ∧ x ≠ q ∧
          (backslash_escape = true → x ≠ backslash) := by
        intro x hx
        rw [List.mem_singleton] at hx
        subst hx
        exact ⟨hc0, fun _ => hcd, hcq,
          fun hbe he => hb hbe (he ▸ List.mem_cons_self x s)⟩
      have hstep := scan_plain signedChar d q false backslash_escape double_escape strict
        false [c] fuel s field out (by simp only [List.length_singleton]; omega) hplain
      simp only [List.singleton_append, List.length_singleton] at hstep
      rw [hstep]
      have hdf1 : d ∉ field ++ [c] := by
        simp only [List.mem_append, List.mem_singleton, not_or]
        exact ⟨hdf, fun he => hcd he.symm⟩
      by_cases hs : s = []
      · subst hs
        rw [scan_nil _ _ _ _ _ _ _ _ _ _ _ (by omega), finish_not_in_string,
          naiveSplit_of_not_mem d _ hdf1]
        simp
      · rw [ih (fuel - 1) (field ++ [c]) out hs (by omega) hdf1 hqs h0s hbs]
        simp

/-- C1: for every delimiter `d`, quote `q` and non-empty line without quote and
NUL characters (and without backslash when `backslash_escape` is on), the
splitter with `collapse = false` returns exactly the naive split of the line on
`d`: the separator-free segments whose concatenation with `d` between them is
the line, one more of them than the line has occurrences of `d`. -/
theorem C1_naive_split_equivalence (signedChar : Bool) (d q : Byte)
    (backslash_escape double_escape strict : Bool) (line : List Byte) (fuel : Nat)
    (hne : line ≠ []) (hq : q ∉ line) (h0 : (0 : Byte) ∉ line)
    (hb : backslash_escape = true → backslash ∉ line)
    (hfuel : line.length < fuel) :
    parse_line_delimited signedChar fuel line [d] [q]
        false backslash_escape double_escape strict =
      some (Except.ok (naiveSplit d line)) ∧
    naiveSplit d line = line.splitOn d ∧
    (∀ seg ∈ naiveSplit d line, d ∉ seg) ∧
    List.intercalate [d] (naiveSplit d line) = line ∧
    (naiveSplit d line).length = line.count d + 1 := by
  refine ⟨?_, naiveSplit_eq_splitOn d line,
    naiveSplit_segments d line, naiveSplit_intercalate d line,
    naiveSplit_length d line⟩
  have h := scan_unquoted signedChar d q backslash_escape double_escape strict
    line fuel [] [] hne hfuel (by simp) hq h0 hb
  simpa [parse_line_delimited, firstChar] using h

/-- Witness for C1: the line `a\,b` with `backslash_escape = false` yields the
two fields `a\` and `b`. -/
theorem C1_naive_split_equivalence_witness :
    str "a\\,b" ≠ [] ∧
    parse_line_delimited true 5 (str "a\\,b")
        (str ",") (str "\"") false false false false =
      some (Except.ok [str "a\\", str "b"]) :=
  ⟨by decide,
    (C1_naive_split_equivalence true 44 34 false false false (str "a\\,b") 5
      (by decide) (by decide) (by decide) (by decide) (by decide)).1⟩

/-! ## Runs of delimiters -/

theorem plain_of_not_mem (d q : Byte) (backslash_escape in_string : Bool) (s : List Byte)
    (h0 : (0 : Byte) ∉ s) (hd : d ∉ s) (hq : q ∉ s) (hb : backslash ∉ s) :
    ∀ c ∈ s, c ≠ 0 ∧ (in_string = false → c ≠ d) ∧ c ≠ q ∧
      (backslash_escape = true → c ≠ backslash) :=
  fun _ hc => ⟨fun he => h0 (he ▸ hc), fun _ he => hd (he ▸ hc), fun he => hq (he ▸ hc),
    fun _ he => hb (he ▸ hc)⟩

theorem scan_delim_run (signedChar : Bool) (d q : Byte)
    (backslash_escape double_escape strict : Bool) (hd0 : d ≠ 0) (k : Nat) :
    ∀ (fuel : Nat) (rest field : List Byte) (out : List (List Byte)),
      k + 1 ≤ fuel → rest ≠ [] →
      scan signedChar d q false backslash_escape double_escape strict
        fuel (List.replicate (k + 1) d ++ rest) field out false =
      scan signedChar d q false backslash_escape double_escape strict
        (fuel - (k + 1)) rest [] (out ++ [field] ++ List.replicate k []) false := by
  induction k with
  | zero =>
    intro fuel rest field out hfuel hrest
    have h := scan_delim signedChar d q backslash_escape double_escape strict fuel rest field out
      (by omega) hd0
    simpa [hrest] using h
  | succ k ih =>
    intro fuel rest field out hfuel hrest
    have hne : List.replicate (k + 1) d ++ rest ≠ [] := by simp [List.replicate_succ]
    have h := scan_delim signedChar d q backslash_escape double_escape strict fuel
      (List.replicate (k + 1) d ++ rest) field out (by omega) hd0
    rw [if_neg hne] at h
    rw [List.replicate_succ, List.cons_append, h,
      ih (fuel - 1) rest [] (out ++ [field]) (by omega) hrest]
    have hrep : ([] : List Byte) :: List.replicate k [] = List.replicate (k + 1) [] := rfl
    have hfuel1 : fuel - 1 - (k + 1) = fuel - (k + 1 + 1) := by omega
    rw [hfuel1, List.append_assoc (out ++ [field]), List.singleton_append, hrep]

theorem peek_ne_of_not_mem (signedChar : Bool) (d : Byte) (s : List Byte)
    (hne : s ≠ []) (hd : d ∉ s) : peek s ≠ charToInt signedChar d := by
  cases s with
  | nil => exact absurd rfl hne
  | cons c rest =>
    exact peek_cons_ne signedChar d c rest (fun he => hd (he ▸ List.mem_cons_self c rest))

/-- C2, as amended: for every delimiter `d` other than NUL, every `k ≥ 1`, every
`a` and non-empty `b` without delimiter, quote, backslash and NUL, splitting
`a ++ d^k ++ b` with `collapse = false` yields `[a] ++ (k-1 empty fields) ++ [b]`,
and with `collapse = true` it yields `[a, b]` when the delimiter is a 7-bit
character (or `char` is unsigned). -/
theorem C2_collapse_amended (signedChar : Bool) (d q : Byte)
    (backslash_escape double_escape strict : Bool) (k : Nat) (a b : List Byte) (fuel : Nat)
    (hd0 : d ≠ 0) (hk : 1 ≤ k) (hb : b ≠ [])
    (had : d ∉ a) (haq : q ∉ a) (hab : backslash ∉ a) (ha0 : (0 : Byte) ∉ a)
    (hbd : d ∉ b) (hbq : q ∉ b) (hbb : backslash ∉ b) (hb0 : (0 : Byte) ∉ b)
    (hfuel : (a ++ List.replicate k d ++ b).length < fuel) :
    parse_line_delimited signedChar fuel (a ++ List.replicate k d ++ b) [d] [q]
        false backslash_escape double_escape strict =
      some (Except.ok ([a] ++ List.replicate (k - 1) [] ++ [b])) ∧
    ((signedChar = true → d.val < 128) →
      parse_line_delimited signedChar fuel (a ++ List.replicate k d ++ b) [d] [q]
          true backslash_escape double_escape strict =
        some (Except.ok [a, b])) := by
  obtain ⟨j, rfl⟩ : ∃ j, k = j + 1 := ⟨k - 1, by omega⟩
  simp only [List.length_append, List.length_replicate] at hfuel
  have hpa := plain_of_not_mem d q backslash_escape false a ha0 had haq hab
  have hpb := plain_of_not_mem d q backslash_escape false b hb0 hbd hbq hbb
  have hfin : finish strict b [a] false = Except.ok [a, b] := by
    rw [finish_not_in_string, if_neg hb]
    rfl
  constructor
  · simp only [parse_line_delimited, firstChar, List.append_assoc]
    rw [scan_plain signedChar d q false backslash_escape double_escape strict false a fuel _ [] []
        (by omega) hpa,
      scan_delim_run signedChar d q backslash_escape double_escape strict hd0 j _ b _ _
        (by omega) hb]
    have hstep := scan_plain signedChar d q false backslash_escape double_escape strict false b
      (fuel - a.length - (j + 1)) [] [] ([] ++ [[] ++ a] ++ List.replicate j []) (by omega) hpb
    rw [List.append_nil] at hstep
    rw [hstep, scan_nil _ _ _ _ _ _ _ _ _ _ _ (by omega), finish_not_in_string]
    simp [hb]
  · intro hd
    simp only [parse_line_delimited, firstChar, List.append_assoc]
    rw [scan_plain signedChar d q true backslash_escape double_escape strict false a fuel _ [] []
        (by omega) hpa, List.replicate_succ, List.cons_append,
      scan_delim_collapse signedChar d q backslash_escape double_escape strict
        (fuel - a.length) (List.replicate j d ++ b) b _ _ (by omega) hd0
        (skipDelims_replicate signedChar d j _ b (by omega) hd
          (peek_ne_of_not_mem signedChar d b hb hbd)),
      if_neg hb]
    have hstep := scan_plain signedChar d q true backslash_escape double_escape strict false b
      (fuel - a.length - 1) [] [] ([] ++ [[] ++ a]) (by omega) hpb
    rw [List.append_nil] at hstep
    rw [hstep, scan_nil _ _ _ _ _ _ _ _ _ _ _ (by omega)]
    simpa using hfin

/-- Witness for C2: `a,,,b` with the default delimiter and quote. -/
theorem C2_collapse_amended_witness :
    parse_line_delimited true 6 (str "a" ++ List.replicate 3 44 ++ str "b") [44] [34]
        false false false false =
      some (Except.ok ([str "a"] ++ List.replicate (3 - 1) [] ++ [str "b"])) ∧
    parse_line_delimited true 6 (str "a" ++ List.replicate 3 44 ++ str "b") [44] [34]
        true false false false =
      some (Except.ok [str "a", str "b"]) :=
  ⟨(C2_collapse_amended true 44 34 false false false 3 (str "a") (str "b") 6
      (by decide) (by decide) (by decide) (by decide) (by decide) (by decide)
      (by decide) (by decide) (by decide) (by decide) (by decide) (by decide)).1,
    (C2_collapse_amended true 44 34 false false false 3 (str "a") (str "b") 6
      (by decide) (by decide) (by decide) (by decide) (by decide) (by decide)
      (by decide) (by decide) (by decide) (by decide) (by decide) (by decide)).2
      (by decide)⟩

/-- Counterexample to C2 as stated: with the delimiter NUL the scan stops at the
first delimiter, so `a ++ [NUL] ++ b` yields `[a]` for either value of
`collapse`; and where `char` is signed a delimiter byte of 128 or more is never
collapsed, so `a ++ [233, 233] ++ b` with `collapse = true` yields three
fields. -/
theorem C2_collapse_counterexample :
    (parse_line_delimited true 4 (str "a" ++ List.replicate 1 0 ++ str "b") [0] [34]
        true false false false = some (Except.ok [str "a"]) ∧
      (some (Except.ok [str "a"]) : Option (Except String (List (List Byte)))) ≠
        some (Except.ok [str "a", str "b"])) ∧
    (parse_line_delimited true 5 (str "a" ++ List.replicate 2 233 ++ str "b") [233] [34]
        true false false false = some (Except.ok [str "a", [], str "b"]) ∧
      (some (Except.ok [str "a", [], str "b"]) : Option (Except String (List (List Byte)))) ≠
        some (Except.ok [str "a", str "b"])) :=
  ⟨⟨rfl, by simp [str]⟩, ⟨rfl, by simp [str]⟩⟩

/-! ## Quoted regions -/

theorem quoted_of_not_mem (d q : Byte) (s : List Byte)
    (h0 : (0 : Byte) ∉ s) (hq : q ∉ s) (hb : backslash ∉ s) :
    ∀ (backslash_escape : Bool), ∀ c ∈ s, c ≠ 0 ∧ (true = false → c ≠ d) ∧ c ≠ q ∧
      (backslash_escape = true → c ≠ backslash) :=
  fun _ _ hc => ⟨fun he => h0 (he ▸ hc), fun h => Bool.noConfusion h, fun he => hq (he ▸ hc),
    fun _ he => hb (he ▸ hc)⟩

/-- C3, as amended: with all boolean options false, `d ≠ q` and neither of them
NUL, for every `s` without quote, backslash and NUL and every non-empty `t`
without delimiter, quote, backslash and NUL, splitting `q s q d t` yields
exactly `[s, t]`. -/
theorem C3_quoted_delimiter_literal_amended (signedChar : Bool) (d q : Byte)
    (s t : List Byte) (fuel : Nat)
    (hdq : d ≠ q) (hd0 : d ≠ 0) (hq0 : q ≠ 0)
    (hsq : q ∉ s) (hsb : backslash ∉ s) (hs0 : (0 : Byte) ∉ s)
    (ht : t ≠ []) (htd : d ∉ t) (htq : q ∉ t) (htb : backslash ∉ t) (ht0 : (0 : Byte) ∉ t)
    (hfuel : ([q] ++ s ++ [q] ++ [d] ++ t).length < fuel) :
    parse_line_delimited signedChar fuel ([q] ++ s ++ [q] ++ [d] ++ t) [d] [q]
        false false false false =
      some (Except.ok [s, t]) := by
  simp only [List.length_append, List.length_singleton] at hfuel
  have hline : [q] ++ s ++ [q] ++ [d] ++ t = q :: (s ++ q :: d :: t) := by simp
  simp only [parse_line_delimited, firstChar, hline]
  rw [scan_open signedChar d q false false false false fuel _ [] [] (by omega) hq0
      hdq.symm (fun h => Bool.noConfusion h),
    scan_plain signedChar d q false false false false true s (fuel - 1) _ [] []
      (by omega) (quoted_of_not_mem d q s hs0 hsq hsb false),
    scan_close signedChar d q false false false false _ _ _ _ (by omega) hq0
      (fun h => Bool.noConfusion h),
    scan_delim signedChar d q false false false _ t _ _ (by omega) hd0, if_neg ht]
  have hstep := scan_plain signedChar d q false false false false false t
    (fuel - 1 - s.length - 1 - 1) [] [] ([] ++ [[] ++ s]) (by omega)
    (plain_of_not_mem d q false false t ht0 htd htq htb)
  rw [List.append_nil] at hstep
  rw [hstep, scan_nil _ _ _ _ _ _ _ _ _ _ _ (by omega), finish_not_in_string]
  simp [ht]

/-- Witness for C3: the line `"a,b",c` yields the fields `a,b` and `c`. -/
theorem C3_quoted_delimiter_literal_amended_witness :
    ([34] ++ str "a,b" ++ [34] ++ [44] ++ str "c" = str "\"a,b\",c") ∧
    parse_line_delimited true 8 ([34] ++ str "a,b" ++ [34] ++ [44] ++ str "c") [44] [34]
        false false false false =
      some (Except.ok [str "a,b", str "c"]) :=
  ⟨by decide,
    C3_quoted_delimiter_literal_amended true 44 34 (str "a,b") (str "c") 8
      (by decide) (by decide) (by decide) (by decide) (by decide) (by decide)
      (by decide) (by decide) (by decide) (by decide) (by decide) (by decide)⟩

/-- Counterexample to C3 as stated: with the quote NUL the scan stops at the
opening quote and `q a,b q , c` yields no field at all; with the delimiter NUL
it stops at the delimiter and `"a" NUL c` yields only `[a]`. -/
theorem C3_quoted_delimiter_literal_counterexample :
    (parse_line_delimited true 8 ([0] ++ str "a,b" ++ [0] ++ [44] ++ str "c") [44] [0]
        false false false false = some (Except.ok []) ∧
      (some (Except.ok []) : Option (Except String (List (List Byte)))) ≠
        some (Except.ok [str "a,b", str "c"])) ∧
    (parse_line_delimited true 6 ([34] ++ str "a" ++ [34] ++ [0] ++ str "c") [0] [34]
        false false false false = some (Except.ok [str "a"]) ∧
      (some (Except.ok [str "a"]) : Option (Except String (List (List Byte)))) ≠
        some (Except.ok [str "a", str "c"])) :=
  ⟨⟨rfl, by simp⟩, ⟨rfl, by simp [str]⟩⟩

theorem peek_append_ne (signedChar : Bool) (q : Byte) (s rest : List Byte)
    (hne : s ≠ []) (hq : q ∉ s) : peek (s ++ rest) ≠ charToInt signedChar q := by
  cases s with
  | nil => exact absurd rfl hne
  | cons c s1 =>
    exact peek_cons_ne signedChar q c (s1 ++ rest)
      (fun he => hq (he ▸ List.mem_cons_self c s1))

/-- Inside a quoted region: the rest `t` of the quoted text, the closing quote,
a delimiter and a last unquoted field `u`. -/
theorem scan_quoted_tail (signedChar : Bool) (d q : Byte) (double_escape : Bool)
    (t u field : List Byte) (fuel : Nat)
    (hdq : d ≠ q) (hd0 : d ≠ 0) (hq0 : q ≠ 0)
    (htq : q ∉ t) (htb : backslash ∉ t) (ht0 : (0 : Byte) ∉ t)
    (hu : u ≠ []) (hud : d ∉ u) (huq : q ∉ u) (hub : backslash ∉ u) (hu0 : (0 : Byte) ∉ u)
    (hfuel : t.length + u.length + 2 < fuel) :
    scan signedChar d q false false double_escape false fuel (t ++ q :: d :: u) field [] true =
      some (Except.ok [field ++ t, u]) := by
  rw [scan_plain signedChar d q false false double_escape false true t fuel _ field []
      (by omega) (quoted_of_not_mem d q t ht0 htq htb false),
    scan_close signedChar d q false false double_escape false _ _ _ _ (by omega) hq0
      (fun _ => peek_cons_ne signedChar q d u hdq),
    scan_delim signedChar d q false double_escape false _ u _ _ (by omega) hd0, if_neg hu]
  have hstep := scan_plain signedChar d q false false double_escape false false u
    (fuel - t.length - 1 - 1) [] [] ([] ++ [field ++ t]) (by omega)
    (plain_of_not_mem d q false false u hu0 hud huq hub)
  rw [List.append_nil] at hstep
  rw [hstep, scan_nil _ _ _ _ _ _ _ _ _ _ _ (by omega), finish_not_in_string]
  simp [hu]

/-- C4, as amended: with `double_escape = true`, the other boolean options
false, `d ≠ q`, neither of them NUL and the quote a 7-bit character (or `char`
unsigned), for all `s`, `t` without quote, backslash and NUL that are not both
empty and every non-empty `u` without delimiter, quote, backslash and NUL,
splitting `q s q q t q d u` yields exactly `[s ++ q ++ t, u]`. -/
theorem C4_double_escape_enabled_amended (signedChar : Bool) (d q : Byte)
    (s t u : List Byte) (fuel : Nat)
    (hdq : d ≠ q) (hd0 : d ≠ 0) (hq0 : q ≠ 0) (hq7 : signedChar = true → q.val < 128)
    (hst : ¬ (s = [] ∧ t = []))
    (hsq : q ∉ s) (hsb : backslash ∉ s) (hs0 : (0 : Byte) ∉ s)
    (htq : q ∉ t) (htb : backslash ∉ t) (ht0 : (0 : Byte) ∉ t)
    (hu : u ≠ []) (hud : d ∉ u) (huq : q ∉ u) (hub : backslash ∉ u) (hu0 : (0 : Byte) ∉ u)
    (hfuel : ([q] ++ s ++ [q] ++ [q] ++ t ++ [q] ++ [d] ++ u).length < fuel) :
    parse_line_delimited signedChar fuel ([q] ++ s ++ [q] ++ [q] ++ t ++ [q] ++ [d] ++ u)
        [d] [q] false false true false =
      some (Except.ok [s ++ [q] ++ t, u]) := by
  simp only [List.length_append, List.length_singleton] at hfuel
  have hline : [q] ++ s ++ [q] ++ [q] ++ t ++ [q] ++ [d] ++ u =
      q :: (s ++ q :: q :: (t ++ q :: d :: u)) := by simp
  have hqq : ∀ r, peek (q :: r) = charToInt signedChar q :=
    fun r => (peek_cons_eq_iff signedChar q q r).2 ⟨rfl, hq7⟩
  simp only [parse_line_delimited, firstChar, hline]
  by_cases hs : s = []
  · subst hs
    have ht : t ≠ [] := fun h => hst ⟨rfl, h⟩
    rw [List.nil_append,
      scan_doubled signedChar d q false false true false fuel _ [] [] false (by omega) hq0
        (fun _ => hdq.symm) rfl (hqq _)]
    simp only [advance]
    rw [scan_open signedChar d q false false true false _ _ _ _ (by omega) hq0 hdq.symm
        (fun _ => peek_append_ne signedChar q t _ ht htq),
      scan_quoted_tail signedChar d q true t u _ _ hdq hd0 hq0 htq htb ht0 hu hud huq hub hu0
        (by omega)]
  · rw [scan_open signedChar d q false false true false fuel _ [] [] (by omega) hq0 hdq.symm
        (fun _ => peek_append_ne signedChar q s _ hs hsq),
      scan_plain signedChar d q false false true false true s (fuel - 1) _ [] []
        (by omega) (quoted_of_not_mem d q s hs0 hsq hsb false),
      scan_doubled signedChar d q false false true false _ _ _ _ true (by omega) hq0
        (fun h => Bool.noConfusion h) rfl (hqq _)]
    simp only [advance]
    rw [scan_quoted_tail signedChar d q true t u _ _ hdq hd0 hq0 htq htb ht0 hu hud huq hub hu0
        (by omega)]
    simp

/-- Witness for C4: the line `"a""b",c` yields the fields `a"b` and `c`. -/
theorem C4_double_escape_enabled_amended_witness :
    ([34] ++ str "a" ++ [34] ++ [34] ++ str "b" ++ [34] ++ [44] ++ str "c" =
      str "\"a\"\"b\",c") ∧
    parse_line_delimited true 9
        ([34] ++ str "a" ++ [34] ++ [34] ++ str "b" ++ [34] ++ [44] ++ str "c")
        [44] [34] false false true false =
      some (Except.ok [str "a" ++ [34] ++ str "b", str "c"]) :=
  ⟨by decide,
    C4_double_escape_enabled_amended true 44 34 (str "a") (str "b") (str "c") 9
      (by decide) (by decide) (by decide) (by decide) (by decide) (by decide)
      (by decide) (by decide) (by decide) (by decide) (by decide) (by decide)
      (by decide) (by decide) (by decide) (by decide) (by decide)⟩

/-- Counterexample to C4 as stated.  With `s` and `t` both empty the line is
`"""",c`: the first two quotes are taken as a doubled quote outside any region,
and so are the next two, which gives the fields `""` and `c` instead of `"` and
`c`.  With the quote NUL the scan stops at once; with the delimiter NUL it
stops at the delimiter; and where `char` is signed a quote byte of 128 or more
never compares equal to `peek()`, so no doubled quote is recognised. -/
theorem C4_double_escape_enabled_counterexample :
    (parse_line_delimited true 7
        ([34] ++ [] ++ [34] ++ [34] ++ [] ++ [34] ++ [44] ++ str "c")
        [44] [34] false false true false = some (Except.ok [[34, 34], str "c"]) ∧
      (some (Except.ok [[34, 34], str "c"]) : Option (Except String (List (List Byte)))) ≠
        some (Except.ok [[] ++ [34] ++ [], str "c"])) ∧
    (parse_line_delimited true 9
        ([0] ++ str "a" ++ [0] ++ [0] ++ str "b" ++ [0] ++ [44] ++ str "c")
        [44] [0] false false true false = some (Except.ok []) ∧
      (some (Except.ok []) : Option (Except String (List (List Byte)))) ≠
        some (Except.ok [str "a" ++ [0] ++ str "b", str "c"])) ∧
    (parse_line_delimited true 9
        ([34] ++ str "a" ++ [34] ++ [34] ++ str "b" ++ [34] ++ [0] ++ str "c")
        [0] [34] false false true false = some (Except.ok [str "a" ++ [34] ++ str "b"]) ∧
      (some (Except.ok [str "a" ++ [34] ++ str "b"]) :
          Option (Except String (List (List Byte)))) ≠
        some (Except.ok [str "a" ++ [34] ++ str "b", str "c"])) ∧
    (parse_line_delimited true 9
        ([171] ++ str "a" ++ [171] ++ [171] ++ str "b" ++ [171] ++ [44] ++ str "c")
        [44] [171] false false true false = some (Except.ok [str "ab", str "c"]) ∧
      (some (Except.ok [str "ab", str "c"]) : Option (Except String (List (List Byte)))) ≠
        some (Except.ok [str "a" ++ [171] ++ str "b", str "c"])) :=
  ⟨⟨rfl, by simp⟩, ⟨rfl, by simp⟩, ⟨rfl, by simp [str]⟩, ⟨rfl, by simp [str]⟩⟩

/-- C5, as amended: with all boolean options false, delimiter comma and quote
double-quote, the line `"a""b",c` yields exactly the two fields `ab` and `c`:
a quote only toggles the region and never ends a field. -/
theorem C5_double_escape_disabled_amended (signedChar : Bool) (fuel : Nat)
    (hfuel : (str "\"a\"\"b\",c").length < fuel) :
    parse_line_delimited signedChar fuel (str "\"a\"\"b\",c") (str ",") (str "\"")
        false false false false =
      some (Except.ok [str "ab", str "c"]) := by
  obtain ⟨n, rfl⟩ : ∃ n, fuel = n + 9 := ⟨fuel - 9, by
    have h8 : (str "\"a\"\"b\",c").length = 8 := by decide
    omega⟩
  rfl

/-- Witness for C5 at the smallest sufficient fuel. -/
theorem C5_double_escape_disabled_amended_witness :
    (str "\"a\"\"b\",c").length < 9 ∧
    parse_line_delimited true 9 (str "\"a\"\"b\",c") (str ",") (str "\"")
        false false false false =
      some (Except.ok [str "ab", str "c"]) :=
  ⟨by decide, C5_double_escape_disabled_amended true 9 (by decide)⟩

/-- Counterexample to C5 as stated: the result is not the pair of fields `a`
and `b",c`. -/
theorem C5_double_escape_disabled_counterexample :
    parse_line_delimited true 9 (str "\"a\"\"b\",c") (str ",") (str "\"")
        false false false false ≠
      some (Except.ok [str "a", str "b\",c"]) ∧
    parse_line_delimited false 9 (str "\"a\"\"b\",c") (str ",") (str "\"")
        false false false false ≠
      some (Except.ok [str "a", str "b\",c"]) :=
  ⟨fun h => by
      have e : parse_line_delimited true 9 (str "\"a\"\"b\",c") (str ",") (str "\"")
          false false false false = some (Except.ok [str "ab", str "c"]) := rfl
      rw [e] at h
      simp [str] at h,
    fun h => by
      have e : parse_line_delimited false 9 (str "\"a\"\"b\",c") (str ",") (str "\"")
          false false false false = some (Except.ok [str "ab", str "c"]) := rfl
      rw [e] at h
      simp [str] at h⟩

/-! ## Escapes -/

/-- A run of plain characters up to the end of the line. -/
theorem scan_plain_end (signedChar : Bool) (d q : Byte)
    (collapse backslash_escape double_escape strict in_string : Bool)
    (s field : List Byte) (out : List (List Byte)) (fuel : Nat) (hfuel : s.length < fuel)
    (hs : ∀ c ∈ s, c ≠ 0 ∧ (in_string = false → c ≠ d) ∧ c ≠ q ∧
      (backslash_escape = true → c ≠ backslash)) :
    scan signedChar d q collapse backslash_escape double_escape strict
      fuel s field out in_string = some (finish strict (field ++ s) out in_string) := by
  have hstep := scan_plain signedChar d q collapse backslash_escape double_escape strict
    in_string s fuel [] field out (by omega) hs
  rw [List.append_nil] at hstep
  rw [hstep, scan_nil _ _ _ _ _ _ _ _ _ _ _ (by omega)]

theorem finish_nonempty (strict : Bool) (field : List Byte) (out : List (List Byte))
    (hf : field ≠ []) : finish strict field out false = Except.ok (out ++ [field]) := by
  rw [finish_not_in_string, if_neg hf]

/-- C6, as amended: with `backslash_escape = true`, `d` and `q` different from
backslash and from each other, for every character `x` and all `s`, `t` without
delimiter, quote, backslash and NUL, splitting `s \ x t` yields exactly
`[s ++ x ++ t]`; and so does splitting the quoted `q s \ x t q` when the quote
is not NUL and, with `double_escape` on a signed-`char` platform, not the byte
255. -/
theorem C6_backslash_escape_amended (signedChar : Bool) (d q : Byte)
    (collapse double_escape strict : Bool) (x : Byte) (s t : List Byte) (fuel : Nat)
    (hdb : d ≠ backslash) (hqb : q ≠ backslash) (hdq : d ≠ q)
    (hsd : d ∉ s) (hsq : q ∉ s) (hsb : backslash ∉ s) (hs0 : (0 : Byte) ∉ s)
    (htd : d ∉ t) (htq : q ∉ t) (htb : backslash ∉ t) (ht0 : (0 : Byte) ∉ t)
    (hfuel : ([q] ++ s ++ [backslash] ++ [x] ++ t ++ [q]).length < fuel) :
    parse_line_delimited signedChar fuel (s ++ [backslash] ++ [x] ++ t) [d] [q]
        collapse true double_escape strict =
      some (Except.ok [s ++ [x] ++ t]) ∧
    (q ≠ 0 → (double_escape = true → signedChar = true → q.val ≠ 255) →
      parse_line_delimited signedChar fuel ([q] ++ s ++ [backslash] ++ [x] ++ t ++ [q]) [d] [q]
          collapse true double_escape strict =
        some (Except.ok [s ++ [x] ++ t])) := by
  simp only [List.length_append, List.length_singleton] at hfuel
  have hne : [] ++ s ++ [x] ++ t ≠ [] := by simp
  constructor
  · have hline : s ++ [backslash] ++ [x] ++ t = s ++ backslash :: x :: t := by simp
    simp only [parse_line_delimited, firstChar, hline]
    rw [scan_plain signedChar d q collapse true double_escape strict false s fuel _ [] []
        (by omega) (plain_of_not_mem d q true false s hs0 hsd hsq hsb),
      scan_escape signedChar d q collapse double_escape strict _ x t _ _ false (by omega)
        hdb.symm hqb.symm,
      scan_plain_end signedChar d q collapse true double_escape strict false t _ _ _
        (by omega) (plain_of_not_mem d q true false t ht0 htd htq htb),
      finish_nonempty strict _ _ hne]
    simp
  · intro hq0 hq255
    have hline : [q] ++ s ++ [backslash] ++ [x] ++ t ++ [q] =
        q :: (s ++ backslash :: x :: (t ++ [q])) := by simp
    have hopen : double_escape = true →
        peek (s ++ backslash :: x :: (t ++ [q])) ≠ charToInt signedChar q := by
      intro _
      by_cases hs : s = []
      · subst hs
        exact peek_cons_ne signedChar q backslash _ hqb.symm
      · exact peek_append_ne signedChar q s _ hs hsq
    have hclose : double_escape = true → peek [] ≠ charToInt signedChar q := by
      intro hde hp
      have h := (peek_nil_eq_iff signedChar q).1 hp
      exact hq255 hde h.1 h.2
    simp only [parse_line_delimited, firstChar, hline]
    rw [scan_open signedChar d q collapse true double_escape strict fuel _ [] []
        (by omega) hq0 hdq.symm hopen,
      scan_plain signedChar d q collapse true double_escape strict true s _ _ [] []
        (by omega) (quoted_of_not_mem d q s hs0 hsq hsb true),
      scan_escape signedChar d q collapse double_escape strict _ x _ _ _ true (by omega)
        hdb.symm hqb.symm,
      scan_plain signedChar d q collapse true double_escape strict true t _ _ _ _
        (by omega) (quoted_of_not_mem d q t ht0 htq htb true),
      scan_close signedChar d q collapse true double_escape strict _ _ _ _ (by omega) hq0
        hclose,
      scan_nil _ _ _ _ _ _ _ _ _ _ _ (by omega), finish_nonempty strict _ _ hne]
    simp

/-- Witness for C6: `a\,b`, bare and quoted, yields the single field `a,b`. -/
theorem C6_backslash_escape_amended_witness :
    (str "a" ++ [backslash] ++ [44] ++ str "b" = str "a\\,b") ∧
    parse_line_delimited true 7 (str "a" ++ [backslash] ++ [44] ++ str "b") [44] [34]
        false true false false =
      some (Except.ok [str "a" ++ [44] ++ str "b"]) ∧
    parse_line_delimited true 7
        ([34] ++ str "a" ++ [backslash] ++ [44] ++ str "b" ++ [34]) [44] [34]
        false true false false =
      some (Except.ok [str "a" ++ [44] ++ str "b"]) :=
  ⟨by decide,
    (C6_backslash_escape_amended true 44 34 false false false 44 (str "a") (str "b") 7
      (by decide) (by decide) (by decide) (by decide) (by decide) (by decide) (by decide)
      (by decide) (by decide) (by decide) (by decide) (by decide)).1,
    (C6_backslash_escape_amended true 44 34 false false false 44 (str "a") (str "b") 7
      (by decide) (by decide) (by decide) (by decide) (by decide) (by decide) (by decide)
      (by decide) (by decide) (by decide) (by decide) (by decide)).2 (by decide) (by decide)⟩

/-- Counterexample to C6 as stated: with the quote NUL the scan of the quoted
text stops at the opening quote and yields no field; and where `char` is
signed, with `double_escape` on and the quote byte 255, the closing quote at
the end of the line compares equal to `EOF` and is appended to the field. -/
theorem C6_backslash_escape_counterexample :
    (parse_line_delimited true 7
        ([0] ++ str "a" ++ [backslash] ++ [44] ++ str "b" ++ [0]) [44] [0]
        false true false false = some (Except.ok []) ∧
      (some (Except.ok []) : Option (Except String (List (List Byte)))) ≠
        some (Except.ok [str "a" ++ [44] ++ str "b"])) ∧
    (parse_line_delimited true 7
        ([255] ++ str "a" ++ [backslash] ++ [44] ++ str "b" ++ [255]) [44] [255]
        false true true false = some (Except.ok [str "a" ++ [44] ++ str "b" ++ [255]]) ∧
      (some (Except.ok [str "a" ++ [44] ++ str "b" ++ [255]]) :
          Option (Except String (List (List Byte)))) ≠
        some (Except.ok [str "a" ++ [44] ++ str "b"])) :=
  ⟨⟨rfl, by simp⟩, ⟨rfl, by simp [str]⟩⟩

/-- C8, as amended: with `strict = false`, `d ≠ q` and the quote not NUL, for
every non-empty `s` without quote and NUL (and without backslash when
`backslash_escape` is on), splitting `q ++ s` succeeds and yields exactly `[s]`,
whatever delimiters `s` contains. -/
theorem C8_nonstrict_unterminated_quote_amended (signedChar : Bool) (d q : Byte)
    (collapse backslash_escape double_escape : Bool) (s : List Byte) (fuel : Nat)
    (hdq : d ≠ q) (hq0 : q ≠ 0) (hs : s ≠ []) (hsq : q ∉ s) (hs0 : (0 : Byte) ∉ s)
    (hsb : backslash_escape = true → backslash ∉ s)
    (hfuel : ([q] ++ s).length < fuel) :
    parse_line_delimited signedChar fuel ([q] ++ s) [d] [q]
        collapse backslash_escape double_escape false =
      some (Except.ok [s]) := by
  simp only [List.length_append, List.length_singleton] at hfuel
  have hplain : ∀ c ∈ s, c ≠ 0 ∧ (true = false → c ≠ d) ∧ c ≠ q ∧
      (backslash_escape = true → c ≠ backslash) :=
    fun _ hc => ⟨fun he => hs0 (he ▸ hc), fun h => Bool.noConfusion h,
      fun he => hsq (he ▸ hc), fun hb he => hsb hb (he ▸ hc)⟩
  simp only [parse_line_delimited, firstChar, List.singleton_append]
  rw [scan_open signedChar d q collapse backslash_escape double_escape false fuel s [] []
      (by omega) hq0 hdq.symm
      (fun _ => by simpa using peek_append_ne signedChar q s [] hs hsq),
    scan_plain_end signedChar d q collapse backslash_escape double_escape false true s _ _ _
      (by omega) hplain]
  simp [finish, hs]

/-- Witness for C8: a quote followed by `unterminated` yields that one field. -/
theorem C8_nonstrict_unterminated_quote_amended_witness :
    ([34] ++ str "unterminated" = str "\"unterminated") ∧
    parse_line_delimited true 14 ([34] ++ str "unterminated") [44] [34]
        false false false false =
      some (Except.ok [str "unterminated"]) :=
  ⟨by decide,
    C8_nonstrict_unterminated_quote_amended true 44 34 false false false (str "unterminated") 14
      (by decide) (by decide) (by decide) (by decide) (by decide) (by decide) (by decide)⟩

/-- Counterexample to C8 as stated: with the quote NUL the scan stops at the
opening quote, and `q ++ s` yields no field. -/
theorem C8_nonstrict_unterminated_quote_counterexample :
    parse_line_delimited true 14 ([0] ++ str "unterminated") [44] [0]
        false false false false = some (Except.ok []) ∧
    (some (Except.ok []) : Option (Except String (List (List Byte)))) ≠
      some (Except.ok [str "unterminated"]) :=
  ⟨rfl, by simp⟩

/-! ## A trailing escape introducer -/

/-- The collapse loop stops at the latest at a character different from the
delimiter. -/
theorem skipDelims_append_stop (signedChar : Bool) (d b : Byte) (tail : List Byte)
    (hb : b ≠ d) (rest : List Byte) :
    ∀ fuel : Nat, rest.length < fuel →
      ∃ rest1 : List Byte,
        skipDelims signedChar d fuel (rest ++ b :: tail) = some (rest1 ++ b :: tail) ∧
        rest1.length ≤ rest.length ∧ ∀ c ∈ rest1, c ∈ rest := by
  induction rest with
  | nil =>
    intro fuel hfuel
    exact ⟨[], skipDelims_stop signedChar d fuel _ hfuel (peek_cons_ne signedChar d b tail hb),
      Nat.le_refl _, fun _ h => h⟩
  | cons c r ih =>
    intro fuel hfuel
    simp only [List.length_cons] at hfuel
    obtain ⟨n, rfl⟩ := Nat.exists_eq_succ_of_ne_zero (show fuel ≠ 0 by omega)
    by_cases hp : peek (c :: (r ++ b :: tail)) = charToInt signedChar d
    · obtain ⟨rest1, h1, h2, h3⟩ := ih n (by omega)
      refine ⟨rest1, ?_, ?_, fun x hx => List.mem_cons_of_mem c (h3 x hx)⟩
      · simp only [List.cons_append, skipDelims, hp, if_true, advance]
        exact h1
      · simp only [List.length_cons]
        omega
    · refine ⟨c :: r, ?_, Nat.le_refl _, fun _ h => h⟩
      simp only [List.cons_append, skipDelims, hp, if_false]

/-- With `backslash_escape` and `strict`, a line that ends in its only
backslash is rejected, from every state of the scan. -/
theorem scan_trailing_escape_strict (signedChar : Bool) (d q : Byte)
    (collapse double_escape : Bool) (hdb : d ≠ backslash) (hqb : q ≠ backslash) :
    ∀ (fuel : Nat) (s field : List Byte) (out : List (List Byte)) (in_string : Bool),
      s.length + 1 < fuel → backslash ∉ s → (0 : Byte) ∉ s →
      scan signedChar d q collapse true double_escape true fuel (s ++ [backslash])
        field out in_string = some (Except.error "Unterminated escape") := by
  intro fuel
  induction fuel with
  | zero => intro s _ _ _ hfuel; omega
  | succ n ih =>
    intro s field out in_string hfuel hsb hs0
    cases s with
    | nil =>
      rw [List.nil_append, scan_escape_eof signedChar d q collapse double_escape true (n + 1)
        field out in_string (by omega) hdb.symm hqb.symm]
      rfl
    | cons c r =>
      simp only [List.length_cons] at hfuel
      have hc0 : c ≠ 0 := fun he => hs0 (he ▸ List.mem_cons_self c r)
      have hcb : c ≠ backslash := fun he => hsb (he ▸ List.mem_cons_self c r)
      have hrb : backslash ∉ r := fun hm => hsb (List.mem_cons_of_mem c hm)
      have hr0 : (0 : Byte) ∉ r := fun hm => hs0 (List.mem_cons_of_mem c hm)
      rw [List.cons_append]
      simp only [scan, hc0, if_false]
      by_cases hdelim : (!in_string && decide (c = d)) = true
      · simp only [hdelim, if_true]
        cases collapse with
        | false =>
          simp only [Bool.false_eq_true, if_false]
          exact ih r _ _ _ (by omega) hrb hr0
        | true =>
          obtain ⟨rest1, h1, h2, h3⟩ :=
            skipDelims_append_stop signedChar d backslash [] hdb.symm r n (by omega)
          simp only [if_true, h1]
          exact ih rest1 _ _ _ (by omega) (fun hm => hrb (h3 _ hm)) (fun hm => hr0 (h3 _ hm))
      · simp only [hdelim, Bool.false_eq_true, if_false]
        by_cases hcq : c = q
        · simp only [hcq, if_true]
          by_cases hdbl : (double_escape &&
              decide (peek (r ++ [backslash]) = charToInt signedChar q)) = true
          · simp only [hdbl, if_true]
            cases r with
            | nil =>
              simp only [Bool.and_eq_true, decide_eq_true_eq] at hdbl
              exact absurd hdbl.2 (peek_cons_ne signedChar q backslash [] hqb.symm)
            | cons e r1 =>
              simp only [List.length_cons] at hfuel
              simp only [List.cons_append, advance]
              exact ih r1 _ _ _ (by omega)
                (fun hm => hrb (List.mem_cons_of_mem e hm))
                (fun hm => hr0 (List.mem_cons_of_mem e hm))
          · simp only [hdbl, Bool.false_eq_true, if_false]
            exact ih r _ _ _ (by omega) hrb hr0
        · have hesc : (true && decide (c = backslash)) = false := by simp [hcb]
          simp only [hcq, if_false, hesc, Bool.false_eq_true]
          exact ih r _ _ _ (by omega) hrb hr0

/-- C9: with `backslash_escape = true` and `d`, `q` different from backslash, for
every `s` without backslash and NUL, splitting `s ++ backslash` with
`strict = true` fails with "Unterminated escape" (also when `s` leaves a quoted
region open); with `strict = false`, for every non-empty `s` that also contains
no delimiter and no quote, it succeeds and yields exactly `[s]`. -/
theorem C9_trailing_escape (signedChar : Bool) (d q : Byte)
    (collapse double_escape : Bool) (s : List Byte) (fuel : Nat)
    (hdb : d ≠ backslash) (hqb : q ≠ backslash)
    (hsb : backslash ∉ s) (hs0 : (0 : Byte) ∉ s)
    (hfuel : (s ++ [backslash]).length < fuel) :
    parse_line_delimited signedChar fuel (s ++ [backslash]) [d] [q]
        collapse true double_escape true =
      some (Except.error "Unterminated escape") ∧
    (s ≠ [] → d ∉ s → q ∉ s →
      parse_line_delimited signedChar fuel (s ++ [backslash]) [d] [q]
          collapse true double_escape false =
        some (Except.ok [s])) := by
  simp only [List.length_append, List.length_singleton] at hfuel
  constructor
  · exact scan_trailing_escape_strict signedChar d q collapse double_escape hdb hqb
      fuel s [] [] false (by omega) hsb hs0
  · intro hs hsd hsq
    simp only [parse_line_delimited, firstChar]
    rw [scan_plain signedChar d q collapse true double_escape false false s fuel _ [] []
        (by omega) (plain_of_not_mem d q true false s hs0 hsd hsq hsb),
      scan_escape_eof signedChar d q collapse double_escape false _ _ _ false (by omega)
        hdb.symm hqb.symm]
    simp [finish, hs]

/-- Witness for C9: the line `a\` fails when strict and yields `[a]` otherwise;
and `"a\`, which leaves a quoted region open, reports the escape error. -/
theorem C9_trailing_escape_witness :
    parse_line_delimited true 3 (str "a" ++ [backslash]) [44] [34] false true false true =
      some (Except.error "Unterminated escape") ∧
    parse_line_delimited true 3 (str "a" ++ [backslash]) [44] [34] false true false false =
      some (Except.ok [str "a"]) ∧
    parse_line_delimited true 4 (str "\"a" ++ [backslash]) [44] [34] false true false true =
      some (Except.error "Unterminated escape") :=
  ⟨(C9_trailing_escape true 44 34 false false (str "a") 3
      (by decide) (by decide) (by decide) (by decide) (by decide)).1,
    (C9_trailing_escape true 44 34 false false (str "a") 3
      (by decide) (by decide) (by decide) (by decide) (by decide)).2
      (by decide) (by decide) (by decide),
    (C9_trailing_escape true 44 34 false false (str "\"a") 4
      (by decide) (by decide) (by decide) (by decide) (by decide)).1⟩

/-! ## Termination and errors of the scan in general -/

/-- Unless `EOF` compares equal to the delimiter, the collapse loop exits, having
skipped a run of delimiters. -/
theorem skipDelims_total (signedChar : Bool) (d : Byte)
    (hd : peek [] ≠ charToInt signedChar d) (r : List Byte) :
    ∀ fuel : Nat, r.length < fuel →
      ∃ (k : Nat) (r1 : List Byte),
        r = List.replicate k d ++ r1 ∧ skipDelims signedChar d fuel r = some r1 := by
  induction r with
  | nil =>
    intro fuel hfuel
    exact ⟨0, [], rfl, skipDelims_stop signedChar d fuel [] hfuel hd⟩
  | cons c r ih =>
    intro fuel hfuel
    simp only [List.length_cons] at hfuel
    obtain ⟨n, rfl⟩ := Nat.exists_eq_succ_of_ne_zero (show fuel ≠ 0 by omega)
    by_cases hp : peek (c :: r) = charToInt signedChar d
    · obtain ⟨k, r1, h1, h2⟩ := ih n (by omega)
      have hcd : c = d := ((peek_cons_eq_iff signedChar d c r).1 hp).1
      refine ⟨k + 1, r1, ?_, ?_⟩
      · rw [List.replicate_succ, List.cons_append, ← h1, hcd]
      · simp only [skipDelims, hp, if_true, advance]
        exact h2
    · exact ⟨0, c :: r, rfl, by simp only [skipDelims, hp, if_false]⟩

/-- The test `peek() == delim` can succeed at end of input only where `char` is
signed and the delimiter is the byte 255. -/
theorem collapse_exits_iff (signedChar : Bool) (d : Byte) (collapse : Bool) :
    (collapse = true → peek [] ≠ charToInt signedChar d) ↔
      ¬ (collapse = true ∧ signedChar = true ∧ d.val = 255) := by
  rw [Ne, peek_nil_eq_iff]
  constructor
  · rintro h ⟨hc, hs⟩
    exact h hc hs
  · intro h hc hs
    exact h ⟨hc, hs⟩

/-- With enough fuel the scan returns, unless the collapse loop can run forever. -/
theorem scan_returns (signedChar : Bool) (d q : Byte)
    (collapse backslash_escape double_escape strict : Bool)
    (hexit : collapse = true → peek [] ≠ charToInt signedChar d) :
    ∀ (fuel : Nat) (s field : List Byte) (out : List (List Byte)) (in_string : Bool),
      s.length < fuel →
      ∃ r, scan signedChar d q collapse backslash_escape double_escape strict
        fuel s field out in_string = some r := by
  intro fuel
  induction fuel with
  | zero => intro s _ _ _ hfuel; omega
  | succ n ih =>
    intro s field out in_string hfuel
    cases s with
    | nil => exact ⟨_, scan_nil _ _ _ _ _ _ _ _ _ _ _ (by omega)⟩
    | cons c r =>
      simp only [List.length_cons] at hfuel
      simp only [scan]
      split
      · exact ⟨_, rfl⟩
      · split
        · cases collapse with
          | false =>
            simp only [Bool.false_eq_true, if_false]
            exact ih r _ _ _ (by omega)
          | true =>
            obtain ⟨k, r1, h1, h2⟩ := skipDelims_total signedChar d (hexit rfl) r n (by omega)
            have hlen : r1.length ≤ r.length := by
              rw [h1, List.length_append]
              omega
            simp only [if_true, h2]
            exact ih r1 _ _ _ (by omega)
        · split
          · split
            · have hlen : (advance r).length ≤ r.length := by
                cases r with
                | nil => simp [advance]
                | cons e r1 => simp [advance]
              exact ih (advance r) _ _ _ (by omega)
            · exact ih r _ _ _ (by omega)
          · split
            · cases r with
              | nil =>
                cases strict with
                | true => exact ⟨_, rfl⟩
                | false =>
                  simp only [Bool.false_eq_true, if_false]
                  exact ih [] _ _ _ (by omega)
              | cons e r1 =>
                simp only [List.length_cons] at hfuel
                exact ih r1 _ _ _ (by omega)
            · exact ih r _ _ _ (by omega)

/-- Without `strict` the scan never reports an error. -/
theorem scan_nonstrict_no_error (signedChar : Bool) (d q : Byte)
    (collapse backslash_escape double_escape : Bool) :
    ∀ (fuel : Nat) (s field : List Byte) (out : List (List Byte)) (in_string : Bool)
      (msg : String),
      scan signedChar d q collapse backslash_escape double_escape false
        fuel s field out in_string ≠ some (Except.error msg) := by
  have hfin : ∀ (field : List Byte) (out : List (List Byte)) (in_string : Bool) (msg : String),
      (some (finish false field out in_string) : Option (Except String (List (List Byte)))) ≠
        some (Except.error msg) := by
    intro field out in_string msg
    by_cases hf : field = [] <;> simp [finish, hf]
  intro fuel
  induction fuel with
  | zero => intro s field out in_string msg; simp [scan]
  | succ n ih =>
    intro s field out in_string msg
    cases s with
    | nil =>
      simp only [scan]
      exact hfin _ _ _ _
    | cons c r =>
      simp only [scan]
      split
      · exact hfin _ _ _ _
      · split
        · split
          · simp
          · exact ih _ _ _ _ _
        · split
          · split
            · exact ih _ _ _ _ _
            · exact ih _ _ _ _ _
          · split
            · cases r with
              | nil =>
                simp only [Bool.false_eq_true, if_false]
                exact ih _ _ _ _ _
              | cons e r1 => exact ih _ _ _ _ _
            · exact ih _ _ _ _ _

/-- Without `strict`, and unless the collapse loop can run forever, the splitter
returns a field sequence. -/
theorem nonstrict_returns_fields (signedChar : Bool) (fuel : Nat) (x delim_ quote_ : List Byte)
    (collapse backslash_escape double_escape : Bool)
    (hexit : collapse = true → peek [] ≠ charToInt signedChar (firstChar delim_))
    (hfuel : x.length < fuel) :
    ∃ fields, parse_line_delimited signedChar fuel x delim_ quote_
        collapse backslash_escape double_escape false = some (Except.ok fields) := by
  obtain ⟨r, hr⟩ := scan_returns signedChar (firstChar delim_) (firstChar quote_) collapse
    backslash_escape double_escape false hexit fuel x [] [] false hfuel
  cases r with
  | error msg =>
    exact absurd hr (scan_nonstrict_no_error signedChar (firstChar delim_) (firstChar quote_)
      collapse backslash_escape double_escape fuel x [] [] false msg)
  | ok fields => exact ⟨fields, hr⟩

/-! ## Strict mode and the parity of the quotes -/

theorem count_replicate_append_of_ne (d q : Byte) (hdq : d ≠ q) (k : Nat) (r : List Byte) :
    (List.replicate k d ++ r).count q = r.count q := by
  induction k with
  | zero => simp
  | succ k ih =>
    have hbeq : (d == q) = false := by simpa using hdq
    rw [List.replicate_succ, List.cons_append, List.count_cons, hbeq, ih]
    simp

/-- With `strict` and neither kind of escape, the scan of a NUL-free rest is
rejected exactly when the region is open at its end, that is when `in_string`
differs from the parity of the quotes still to come. -/
theorem scan_strict_parity (signedChar : Bool) (d q : Byte) (collapse : Bool)
    (hdq : d ≠ q) (hexit : collapse = true → peek [] ≠ charToInt signedChar d) :
    ∀ (fuel : Nat) (s field : List Byte) (out : List (List Byte)) (in_string : Bool),
      s.length < fuel → (0 : Byte) ∉ s →
      (xor in_string (decide (s.count q % 2 = 1)) = true →
        scan signedChar d q collapse false false true fuel s field out in_string =
          some (Except.error "Unterminated string")) ∧
      (xor in_string (decide (s.count q % 2 = 1)) = false →
        ∃ fields, scan signedChar d q collapse false false true fuel s field out in_string =
          some (Except.ok fields)) := by
  intro fuel
  induction fuel with
  | zero => intro s _ _ _ hfuel; omega
  | succ n ih =>
    intro s field out in_string hfuel hs0
    cases s with
    | nil =>
      simp only [scan, List.count_nil]
      cases in_string with
      | true => simp [finish]
      | false =>
        by_cases hf : field = [] <;> simp [finish, hf]
    | cons c r =>
      simp only [List.length_cons] at hfuel
      have hc0 : c ≠ 0 := fun he => hs0 (he ▸ List.mem_cons_self c r)
      have hr0 : (0 : Byte) ∉ r := fun hm => hs0 (List.mem_cons_of_mem c hm)
      simp only [scan, hc0, if_false]
      by_cases hdelim : (!in_string && decide (c = d)) = true
      · have hcd : c = d := by
          simp only [Bool.and_eq_true, decide_eq_true_eq] at hdelim
          exact hdelim.2
        have hbeq : (c == q) = false := by
          rw [hcd]
          simpa using hdq
        have hcount : (c :: r).count q = r.count q := by
          rw [List.count_cons, hbeq]
          simp
        simp only [hdelim, if_true, hcount]
        cases collapse with
        | false =>
          simp only [Bool.false_eq_true, if_false]
          exact ih r _ _ _ (by omega) hr0
        | true =>
          obtain ⟨k, r1, h1, h2⟩ := skipDelims_total signedChar d (hexit rfl) r n (by omega)
          have hlen : r1.length ≤ r.length := by
            rw [h1, List.length_append]
            omega
          have hr10 : (0 : Byte) ∉ r1 := by
            intro hm
            apply hr0
            rw [h1]
            exact List.mem_append_right _ hm
          have hcnt : r.count q = r1.count q := by
            rw [h1]
            exact count_replicate_append_of_ne d q hdq k r1
          simp only [if_true, h2, hcnt]
          exact ih r1 _ _ _ (by omega) hr10
      · simp only [hdelim, Bool.false_eq_true, if_false, Bool.false_and]
        by_cases hcq : c = q
        · subst hcq
          have hcount : (c :: r).count c = r.count c + 1 := by
            rw [List.count_cons]
            simp
          have hxor : xor in_string (decide (((c :: r).count c) % 2 = 1)) =
              xor (!in_string) (decide (r.count c % 2 = 1)) := by
            rw [hcount]
            have hm : r.count c % 2 = 0 ∨ r.count c % 2 = 1 := by omega
            rcases hm with hm | hm
            · have h1 : (r.count c + 1) % 2 = 1 := by omega
              cases in_string <;> simp [hm, h1]
            · have h1 : (r.count c + 1) % 2 = 0 := by omega
              cases in_string <;> simp [hm, h1]
          simp only [if_true]
          rw [hxor]
          exact ih r _ _ _ (by omega) hr0
        · have hbeq : (c == q) = false := by simpa using hcq
          have hcount : (c :: r).count q = r.count q := by
            rw [List.count_cons, hbeq]
            simp
          simp only [hcq, if_false, hcount]
          exact ih r _ _ _ (by omega) hr0

/-- Strict mode without escapes: a NUL-free line is rejected with "Unterminated
string" when it has an odd number of quotes and yields a field sequence when it
has an even number, in every configuration in which the collapse loop exits. -/
theorem strict_rejects_odd_quotes (signedChar : Bool) (d q : Byte) (collapse : Bool)
    (line : List Byte) (fuel : Nat) (hdq : d ≠ q)
    (hexit : collapse = true → peek [] ≠ charToInt signedChar d)
    (h0 : (0 : Byte) ∉ line) (hfuel : line.length < fuel) :
    (line.count q % 2 = 1 →
      parse_line_delimited signedChar fuel line [d] [q] collapse false false true =
        some (Except.error "Unterminated string")) ∧
    (line.count q % 2 = 0 →
      ∃ fields, parse_line_delimited signedChar fuel line [d] [q] collapse false false true =
        some (Except.ok fields)) := by
  have h := scan_strict_parity signedChar d q collapse hdq hexit fuel line [] [] false hfuel h0
  constructor
  · intro hodd
    exact h.1 (by simp [hodd])
  · intro heven
    have hne : ¬ line.count q % 2 = 1 := by omega
    exact h.2 (by simp [hne])

/-! ## The collapse loop at end of input with the delimiter byte 255 -/

/-- C7, at the failing input: where `char` is signed, with `strict` and
`collapse` on and the delimiter byte 255, the line `a` followed by the
delimiter has no quote at all (an even number), yet the splitter returns
nothing for any amount of fuel: `peek()` yields `EOF`, which compares equal to
the delimiter, and the collapse loop never exits. -/
theorem C7_strict_even_quotes_no_result :
    ([97, 255] : List Byte).count 34 % 2 = 0 ∧ (0 : Byte) ∉ ([97, 255] : List Byte) ∧
    ∀ fuel : Nat,
      parse_line_delimited true fuel [97, 255] [255] [34] true false false true = none := by
  refine ⟨by decide, by decide, ?_⟩
  intro fuel
  match fuel with
  | 0 => rfl
  | 1 => rfl
  | m + 2 =>
    have hskip := skipDelims_nil_diverges true 255 (by decide) m
    simp [parse_line_delimited, firstChar, scan, hskip]

/-- C10, at the failing input: where `char` is signed, with `strict = false`,
`collapse` on and the delimiter byte 255, the line consisting of that one
delimiter yields no field sequence for any amount of fuel: the collapse loop
never exits at end of input. -/
theorem C10_nonstrict_no_result :
    ∀ fuel : Nat,
      parse_line_delimited true fuel [255] [255] [34] true false false false = none := by
  intro fuel
  match fuel with
  | 0 => rfl
  | m + 1 =>
    have hskip := skipDelims_nil_diverges true 255 (by decide) m
    simp [parse_line_delimited, firstChar, scan, hskip]

/-! ## Delimiters at the end of the line -/

/-- A run of delimiters that ends the line, without collapsing: the current
field and one empty field per delimiter. -/
theorem scan_delim_run_end (signedChar : Bool) (d q : Byte)
    (backslash_escape double_escape strict : Bool) (hd0 : d ≠ 0) (k : Nat) :
    ∀ (fuel : Nat) (field : List Byte) (out : List (List Byte)),
      k + 1 < fuel →
      scan signedChar d q false backslash_escape double_escape strict
        fuel (List.replicate (k + 1) d) field out false =
      some (Except.ok (out ++ [field] ++ List.replicate (k + 1) [])) := by
  induction k with
  | zero =>
    intro fuel field out hfuel
    have h := scan_delim signedChar d q backslash_escape double_escape strict fuel [] field out
      (by omega) hd0
    rw [if_pos rfl] at h
    rw [List.replicate_one, h, scan_nil _ _ _ _ _ _ _ _ _ _ _ (by omega), finish_not_in_string]
    simp
  | succ k ih =>
    intro fuel field out hfuel
    have hne : List.replicate (k + 1) d ≠ [] := by simp [List.replicate_succ]
    have h := scan_delim signedChar d q backslash_escape double_escape strict fuel
      (List.replicate (k + 1) d) field out (by omega) hd0
    rw [if_neg hne] at h
    rw [List.replicate_succ, h, ih (fuel - 1) [] (out ++ [field]) (by omega)]
    have hrep : ([] : List Byte) :: List.replicate (k + 1) [] = List.replicate (k + 1 + 1) [] :=
      rfl
    rw [List.append_assoc (out ++ [field]), List.singleton_append, hrep]

/-- C11, as amended: for every delimiter `d` other than NUL, every `k ≥ 1` and
every `a` without delimiter, quote, backslash and NUL, splitting `a ++ d^k`
with `collapse = false` yields `[a]` followed by exactly `k` empty fields, and
with `collapse = true` it yields `[a, empty]` when the delimiter is a 7-bit
character (or `char` is unsigned). -/
theorem C11_trailing_delimiter_amended (signedChar : Bool) (d q : Byte)
    (backslash_escape double_escape strict : Bool) (k : Nat) (a : List Byte) (fuel : Nat)
    (hd0 : d ≠ 0) (hk : 1 ≤ k)
    (had : d ∉ a) (haq : q ∉ a) (hab : backslash ∉ a) (ha0 : (0 : Byte) ∉ a)
    (hfuel : (a ++ List.replicate k d).length < fuel) :
    parse_line_delimited signedChar fuel (a ++ List.replicate k d) [d] [q]
        false backslash_escape double_escape strict =
      some (Except.ok ([a] ++ List.replicate k [])) ∧
    ((signedChar = true → d.val < 128) →
      parse_line_delimited signedChar fuel (a ++ List.replicate k d) [d] [q]
          true backslash_escape double_escape strict =
        some (Except.ok [a, []])) := by
  obtain ⟨j, rfl⟩ : ∃ j, k = j + 1 := ⟨k - 1, by omega⟩
  simp only [List.length_append, List.length_replicate] at hfuel
  have hpa := plain_of_not_mem d q backslash_escape false a ha0 had haq hab
  constructor
  · simp only [parse_line_delimited, firstChar]
    rw [scan_plain signedChar d q false backslash_escape double_escape strict false a fuel _ [] []
        (by omega) hpa,
      scan_delim_run_end signedChar d q backslash_escape double_escape strict hd0 j _ _ _
        (by omega)]
    simp
  · intro hd
    have hnil : peek [] ≠ charToInt signedChar d := by
      intro hp
      have h := (peek_nil_eq_iff signedChar d).1 hp
      have := hd h.1
      omega
    have hskip : skipDelims signedChar d (fuel - a.length - 1) (List.replicate j d) = some [] := by
      have h := skipDelims_replicate signedChar d j (fuel - a.length - 1) [] (by omega) hd hnil
      simpa using h
    simp only [parse_line_delimited, firstChar]
    rw [scan_plain signedChar d q true backslash_escape double_escape strict false a fuel _ [] []
        (by omega) hpa, List.replicate_succ,
      scan_delim_collapse signedChar d q backslash_escape double_escape strict
        (fuel - a.length) (List.replicate j d) [] _ _ (by omega) hd0 hskip,
      if_pos rfl, scan_nil _ _ _ _ _ _ _ _ _ _ _ (by omega), finish_not_in_string]
    simp

/-- Witness for C11: a single comma with the default configuration yields two
empty fields, for either value of `collapse`. -/
theorem C11_trailing_delimiter_amended_witness :
    ([] ++ List.replicate 1 44 = str ",") ∧
    parse_line_delimited true 2 ([] ++ List.replicate 1 44) [44] [34]
        false false false false = some (Except.ok [[], []]) ∧
    parse_line_delimited true 2 ([] ++ List.replicate 1 44) [44] [34]
        true false false false = some (Except.ok [[], []]) :=
  ⟨by decide,
    (C11_trailing_delimiter_amended true 44 34 false false false 1 [] 2
      (by decide) (by decide) (by decide) (by decide) (by decide) (by decide) (by decide)).1,
    (C11_trailing_delimiter_amended true 44 34 false false false 1 [] 2
      (by decide) (by decide) (by decide) (by decide) (by decide) (by decide) (by decide)).2
      (by decide)⟩

/-- Counterexample to C11 as stated: with the delimiter NUL the scan stops at
the delimiter, so `a ++ [NUL]` yields `[a]` without a trailing empty field; and
where `char` is signed a delimiter byte of 128 or more is never collapsed, so
`a ++ [233, 233]` with `collapse = true` yields two trailing empty fields. -/
theorem C11_trailing_delimiter_counterexample :
    (parse_line_delimited true 3 (str "a" ++ List.replicate 1 0) [0] [34]
        false false false false = some (Except.ok [str "a"]) ∧
      (some (Except.ok [str "a"]) : Option (Except String (List (List Byte)))) ≠
        some (Except.ok ([str "a"] ++ List.replicate 1 []))) ∧
    (parse_line_delimited true 4 (str "a" ++ List.replicate 2 233) [233] [34]
        true false false false = some (Except.ok [str "a", [], []]) ∧
      (some (Except.ok [str "a", [], []]) : Option (Except String (List (List Byte)))) ≠
        some (Except.ok [str "a", []])) :=
  ⟨⟨rfl, by simp⟩, ⟨rfl, by simp⟩⟩

/-! ## The empty line -/

/-- C12: for every configuration, `strict` included, and whatever the delimiter
and quote strings are, splitting the empty line succeeds and yields the empty
sequence of fields. -/
theorem C12_empty_line (signedChar : Bool) (fuel : Nat) (delim_ quote_ : List Byte)
    (collapse backslash_escape double_escape strict : Bool) (hfuel : 0 < fuel) :
    parse_line_delimited signedChar fuel [] delim_ quote_
        collapse backslash_escape double_escape strict = some (Except.ok []) := by
  simp only [parse_line_delimited]
  rw [scan_nil _ _ _ _ _ _ _ _ _ _ _ hfuel, finish_not_in_string]
  rfl

/-- Witness for C12 in strict mode with the default delimiter and quote. -/
theorem C12_empty_line_witness :
    parse_line_delimited true 1 [] (str ",") (str "\"") true true true true =
      some (Except.ok []) :=
  C12_empty_line true 1 (str ",") (str "\"") true true true true (by decide)

/-! ## When the result is empty -/

theorem finish_ok_ne_nil (strict : Bool) (field : List Byte) (out : List (List Byte))
    (in_string : Bool) (r : List (List Byte)) (hstate : field ≠ [] ∨ out ≠ [])
    (h : finish strict field out in_string = Except.ok r) : r ≠ [] := by
  unfold finish at h
  split at h
  · cases h
  · split at h
    · cases h
      simp
    · cases h
      rcases hstate with hf | ho
      · contradiction
      · exact ho

/-- Once a character has been appended to the field, or a field pushed, a
successful scan returns at least one field. -/
theorem scan_ok_ne_nil (signedChar : Bool) (d q : Byte)
    (collapse backslash_escape double_escape strict : Bool) :
    ∀ (fuel : Nat) (s field : List Byte) (out : List (List Byte)) (in_string : Bool)
      (r : List (List Byte)),
      field ≠ [] ∨ out ≠ [] →
      scan signedChar d q collapse backslash_escape double_escape strict
        fuel s field out in_string = some (Except.ok r) → r ≠ [] := by
  intro fuel
  induction fuel with
  | zero => intro s field out in_string r _ h; simp [scan] at h
  | succ n ih =>
    intro s field out in_string r hstate h
    cases s with
    | nil =>
      simp only [scan, Option.some.injEq] at h
      exact finish_ok_ne_nil strict field out in_string r hstate h
    | cons c rest =>
      simp only [scan] at h
      split at h
      · simp only [Option.some.injEq] at h
        exact finish_ok_ne_nil strict field out in_string r hstate h
      · split at h
        · split at h
          · cases h
          · exact ih _ _ _ _ r (Or.inr (by split <;> simp)) h
        · split at h
          · split at h
            · exact ih _ _ _ _ r (Or.inl (by simp)) h
            · exact ih _ _ _ _ r hstate h
          · split at h
            · cases rest with
              | nil =>
                simp only at h
                split at h
                · cases h
                · exact ih _ _ _ _ r hstate h
              | cons e rest1 =>
                exact ih _ _ _ _ r (Or.inl (by simp)) h
            · exact ih _ _ _ _ r (Or.inl (by simp)) h

/-- With nothing in the field buffer and nothing pushed, a scan that returns
the empty sequence has read only region-toggling quotes, up to the end of the
line, to a NUL, or to a final backslash that is dropped. -/
theorem scan_ok_nil_shape (signedChar : Bool) (d q : Byte)
    (collapse backslash_escape double_escape strict : Bool) :
    ∀ (fuel : Nat) (s : List Byte) (in_string : Bool),
      scan signedChar d q collapse backslash_escape double_escape strict
        fuel s [] [] in_string = some (Except.ok []) →
      ∃ (n : Nat) (rest : List Byte), s = List.replicate n q ++ rest ∧
        (rest = [] ∨ (∃ t, rest = 0 :: t) ∨
          (backslash_escape = true ∧ strict = false ∧ rest = [backslash])) := by
  intro fuel
  induction fuel with
  | zero => intro s in_string h; simp [scan] at h
  | succ m ih =>
    intro s in_string h
    cases s with
    | nil => exact ⟨0, [], rfl, Or.inl rfl⟩
    | cons c r =>
      by_cases hc0 : c = 0
      · exact ⟨0, c :: r, rfl, Or.inr (Or.inl ⟨r, by rw [hc0]⟩)⟩
      simp only [scan, hc0, if_false] at h
      split at h
      · split at h
        · cases h
        · exact absurd rfl
            (scan_ok_ne_nil signedChar d q collapse backslash_escape double_escape strict
              m _ _ _ _ [] (Or.inr (by split <;> simp)) h)
      · split at h
        · rename_i hcq
          split at h
          · exact absurd rfl
              (scan_ok_ne_nil signedChar d q collapse backslash_escape double_escape strict
                m _ _ _ _ [] (Or.inl (by simp)) h)
          · obtain ⟨n, rest, hr, hrest⟩ := ih r (!in_string) h
            exact ⟨n + 1, rest, by rw [List.replicate_succ, List.cons_append, ← hr, hcq], hrest⟩
        · split at h
          · rename_i hesc
            simp only [Bool.and_eq_true, decide_eq_true_eq] at hesc
            cases r with
            | nil =>
              cases strict with
              | true => simp at h
              | false =>
                exact ⟨0, [c], rfl, Or.inr (Or.inr ⟨hesc.1, rfl, by rw [hesc.2]⟩)⟩
            | cons e r1 =>
              exact absurd rfl
                (scan_ok_ne_nil signedChar d q collapse backslash_escape double_escape strict
                  m _ _ _ _ [] (Or.inl (by simp)) h)
          · exact absurd rfl
              (scan_ok_ne_nil signedChar d q collapse backslash_escape double_escape strict
                m _ _ _ _ [] (Or.inl (by simp)) h)

/-- C13, as amended: for every configuration and every line, if the splitter
succeeds and returns the empty sequence, then the line consists of quote
characters only, followed by nothing, or by a NUL and anything after it, or
(with `backslash_escape` and without `strict`) by a single final backslash. -/
theorem C13_empty_result_amended (signedChar : Bool) (fuel : Nat) (line : List Byte)
    (d q : Byte) (collapse backslash_escape double_escape strict : Bool)
    (h : parse_line_delimited signedChar fuel line [d] [q]
        collapse backslash_escape double_escape strict = some (Except.ok [])) :
    ∃ (n : Nat) (rest : List Byte), line = List.replicate n q ++ rest ∧
      (rest = [] ∨ (∃ t, rest = 0 :: t) ∨
        (backslash_escape = true ∧ strict = false ∧ rest = [backslash])) :=
  scan_ok_nil_shape signedChar d q collapse backslash_escape double_escape strict
    fuel line false h

/-- Witness for C13: the line of two quotes yields the empty sequence, and it
consists of quotes only. -/
theorem C13_empty_result_amended_witness :
    parse_line_delimited true 3 (str "\"\"") [44] [34] false false false false =
      some (Except.ok []) ∧
    ∃ (n : Nat) (rest : List Byte), str "\"\"" = List.replicate n 34 ++ rest ∧
      (rest = [] ∨ (∃ t, rest = 0 :: t) ∨
        (false = true ∧ false = false ∧ rest = [backslash])) :=
  ⟨rfl, C13_empty_result_amended true 3 (str "\"\"") 44 34 false false false false rfl⟩

/-- Counterexample to C13 as stated: the line of two quotes (an empty quoted
field), the line consisting of one NUL, with `backslash_escape` the line
consisting of one backslash, and the mixed lines `q q NUL a` and (with
`backslash_escape`) `q` backslash are not empty, yet each yields the empty
sequence. -/
theorem C13_empty_result_counterexample :
    (parse_line_delimited true 3 (str "\"\"") [44] [34] false false false false =
        some (Except.ok []) ∧ str "\"\"" ≠ []) ∧
    (parse_line_delimited true 2 [0] [44] [34] false false false false =
        some (Except.ok []) ∧ ([0] : List Byte) ≠ []) ∧
    (parse_line_delimited true 2 [backslash] [44] [34] false true false false =
        some (Except.ok []) ∧ [backslash] ≠ []) ∧
    (parse_line_delimited true 5 (str "\"\"" ++ [0] ++ str "a") [44] [34]
        false false false false =
        some (Except.ok []) ∧ str "\"\"" ++ [0] ++ str "a" ≠ []) ∧
    (parse_line_delimited true 3 (str "\"" ++ [backslash]) [44] [34]
        false true false false =
        some (Except.ok []) ∧ str "\"" ++ [backslash] ≠ []) :=
  ⟨⟨rfl, by decide⟩, ⟨rfl, by decide⟩, ⟨rfl, by decide⟩, ⟨rfl, by decide⟩, ⟨rfl, by decide⟩⟩

/-! ## Termination -/

/-- With enough fuel the splitter returns (fields or an error), in every
configuration in which `EOF` cannot compare equal to the delimiter in the
collapse loop. -/
theorem split_returns (signedChar : Bool) (fuel : Nat) (x delim_ quote_ : List Byte)
    (collapse backslash_escape double_escape strict : Bool)
    (hexit : collapse = true → peek [] ≠ charToInt signedChar (firstChar delim_))
    (hfuel : x.length < fuel) :
    ∃ r, parse_line_delimited signedChar fuel x delim_ quote_
        collapse backslash_escape double_escape strict = some r :=
  scan_returns signedChar (firstChar delim_) (firstChar quote_) collapse
    backslash_escape double_escape strict hexit fuel x [] [] false hfuel

/-- C14, at the failing input: where `char` is signed and the delimiter is the
byte 255, the collapse lookahead at end of input does not advance and never
exits, for any amount of fuel; so the scan of the line `ab` followed by the
delimiter, with `collapse` on, never returns. -/
theorem C14_collapse_lookahead_never_exits :
    (∀ fuel : Nat, skipDelims true 255 fuel [] = none) ∧
    (advance [] = ([] : List Byte)) ∧
    ∀ fuel : Nat,
      parse_line_delimited true fuel [97, 98, 255] [255] [34] true false false false = none := by
  refine ⟨skipDelims_nil_diverges true 255 (by decide), rfl, ?_⟩
  intro fuel
  match fuel with
  | 0 => rfl
  | 1 => rfl
  | 2 => rfl
  | m + 3 =>
    have hskip := skipDelims_nil_diverges true 255 (by decide) m
    simp [parse_line_delimited, firstChar, scan, hskip]

/-! ## The fields are a subsequence of the line -/

theorem advance_suffix (r : List Byte) : advance r <:+ r := by
  cases r with
  | nil => exact List.suffix_refl _
  | cons c r1 => exact List.suffix_cons c r1

/-- What the collapse loop leaves is a suffix of the stream. -/
theorem skipDelims_suffix (signedChar : Bool) (d : Byte) :
    ∀ (fuel : Nat) (r r1 : List Byte),
      skipDelims signedChar d fuel r = some r1 → r1 <:+ r := by
  intro fuel
  induction fuel with
  | zero => intro r r1 h; simp [skipDelims] at h
  | succ n ih =>
    intro r r1 h
    simp only [skipDelims] at h
    split at h
    · exact (ih _ _ h).trans (advance_suffix r)
    · cases h
      exact List.suffix_refl _

theorem finish_ok_flatten (strict : Bool) (field : List Byte) (out : List (List Byte))
    (in_string : Bool) (r : List (List Byte))
    (h : finish strict field out in_string = Except.ok r) :
    r.flatten = out.flatten ++ field := by
  unfold finish at h
  split at h
  · cases h
  · split at h
    · cases h
      simp
    · rename_i hf
      cases h
      have hfe : field = [] := by simpa using hf
      simp [hfe]

/-- The characters of the returned fields are those already in the pushed fields
and the field buffer, followed by a subsequence of the characters still to be
read. -/
theorem scan_flatten (signedChar : Bool) (d q : Byte)
    (collapse backslash_escape double_escape strict : Bool) :
    ∀ (fuel : Nat) (s field : List Byte) (out : List (List Byte)) (in_string : Bool)
      (r : List (List Byte)),
      scan signedChar d q collapse backslash_escape double_escape strict
        fuel s field out in_string = some (Except.ok r) →
      ∃ x : List Byte, x.Sublist s ∧ r.flatten = out.flatten ++ field ++ x := by
  intro fuel
  induction fuel with
  | zero => intro s field out in_string r h; simp [scan] at h
  | succ n ih =>
    intro s field out in_string r h
    cases s with
    | nil =>
      simp only [scan, Option.some.injEq] at h
      exact ⟨[], List.nil_sublist _, by
        simpa using finish_ok_flatten strict field out in_string r h⟩
    | cons c rest =>
      simp only [scan] at h
      split at h
      · simp only [Option.some.injEq] at h
        exact ⟨[], List.nil_sublist _, by
          simpa using finish_ok_flatten strict field out in_string r h⟩
      · split at h
        · split at h
          · cases h
          · rename_i rest1 hskip
            have hsuf : rest1 <:+ rest := by
              cases collapse with
              | false =>
                simp only [Bool.false_eq_true, if_false, Option.some.injEq] at hskip
                exact hskip ▸ List.suffix_refl rest
              | true =>
                simp only [if_true] at hskip
                exact skipDelims_suffix signedChar d _ _ _ hskip
            obtain ⟨x, hx, hr⟩ := ih _ _ _ _ r h
            refine ⟨x, (hx.trans hsuf.sublist).cons c, ?_⟩
            rw [hr]
            split <;> simp
        · split at h
          · rename_i hcq
            split at h
            · obtain ⟨x, hx, hr⟩ := ih _ _ _ _ r h
              refine ⟨q :: x, ?_, ?_⟩
              · rw [hcq]
                exact (hx.trans (advance_suffix rest).sublist).cons₂ q
              · rw [hr]
                simp
            · obtain ⟨x, hx, hr⟩ := ih _ _ _ _ r h
              exact ⟨x, hx.cons c, hr⟩
          · split at h
            · cases rest with
              | nil =>
                simp only at h
                split at h
                · cases h
                · obtain ⟨x, hx, hr⟩ := ih _ _ _ _ r h
                  exact ⟨x, hx.cons c, hr⟩
              | cons e rest1 =>
                obtain ⟨x, hx, hr⟩ := ih _ _ _ _ r h
                refine ⟨e :: x, (hx.cons₂ e).cons c, ?_⟩
                rw [hr]
                simp
            · obtain ⟨x, hx, hr⟩ := ih _ _ _ _ r h
              refine ⟨c :: x, hx.cons₂ c, ?_⟩
              rw [hr]
              simp

/-- C15: for every line and configuration for which the splitter succeeds, the
concatenation of the returned fields, in order, is a subsequence of the line,
and the total length of the fields is at most the length of the line. -/
theorem C15_fields_subsequence (signedChar : Bool) (fuel : Nat) (line : List Byte)
    (d q : Byte) (collapse backslash_escape double_escape strict : Bool)
    (fields : List (List Byte))
    (h : parse_line_delimited signedChar fuel line [d] [q]
        collapse backslash_escape double_escape strict = some (Except.ok fields)) :
    fields.flatten.Sublist line ∧ (fields.map List.length).sum ≤ line.length := by
  obtain ⟨x, hx, hr⟩ := scan_flatten signedChar d q collapse backslash_escape double_escape
    strict fuel line [] [] false fields h
  have hsub : fields.flatten.Sublist line := by
    rw [hr]
    simpa using hx
  exact ⟨hsub, by rw [← List.length_flatten]; exact hsub.length_le⟩

/-- Witness for C15: the fields `a"b` and `c` of the line `"a""b",c`. -/
theorem C15_fields_subsequence_witness :
    parse_line_delimited true 9 (str "\"a\"\"b\",c") [44] [34] false false true false =
      some (Except.ok [str "a\"b", str "c"]) ∧
    ([str "a\"b", str "c"] : List (List Byte)).flatten.Sublist (str "\"a\"\"b\",c") ∧
    (([str "a\"b", str "c"] : List (List Byte)).map List.length).sum ≤
      (str "\"a\"\"b\",c").length :=
  ⟨rfl, C15_fields_subsequence true 9 (str "\"a\"\"b\",c") 44 34 false false true false
    [str "a\"b", str "c"] rfl⟩

/-! ## Only the first character of the option strings is used -/

/-- C16: for every line and all boolean options, splitting with a non-empty
delimiter string `dc :: D` and a non-empty quote string `qc :: Q` gives the
same result (fields, error, or no result) as splitting with the one-character
strings `[dc]` and `[qc]`; in general only `firstChar` of each string is
used. -/
theorem C16_option_truncation (signedChar : Bool) (fuel : Nat) (x : List Byte)
    (collapse backslash_escape double_escape strict : Bool) :
    (∀ (dc qc : Byte) (D Q : List Byte),
      parse_line_delimited signedChar fuel x (dc :: D) (qc :: Q)
          collapse backslash_escape double_escape strict =
        parse_line_delimited signedChar fuel x [dc] [qc]
          collapse backslash_escape double_escape strict) ∧
    (∀ (delim_ quote_ : List Byte),
      parse_line_delimited signedChar fuel x delim_ quote_
          collapse backslash_escape double_escape strict =
        parse_line_delimited signedChar fuel x [firstChar delim_] [firstChar quote_]
          collapse backslash_escape double_escape strict) :=
  ⟨fun _ _ _ _ => rfl, fun _ _ => rfl⟩

/-! ## An empty quoted last field -/

/-- C17, as amended: with both escapes off, `d ≠ q` and `d` not NUL, for every
`s` without delimiter, quote and NUL, splitting `s d q q` yields exactly `[s]`,
and splitting `s d` yields `[s, empty]` in every configuration in which the
collapse loop exits at end of input. -/
theorem C17_empty_quoted_last_field_amended (signedChar : Bool) (d q : Byte)
    (collapse strict : Bool) (s : List Byte) (fuel : Nat)
    (hdq : d ≠ q) (hd0 : d ≠ 0)
    (hsd : d ∉ s) (hsq : q ∉ s) (hs0 : (0 : Byte) ∉ s)
    (hfuel : (s ++ [d] ++ [q] ++ [q]).length < fuel) :
    parse_line_delimited signedChar fuel (s ++ [d] ++ [q] ++ [q]) [d] [q]
        collapse false false strict =
      some (Except.ok [s]) ∧
    ((collapse = true → signedChar = true → d.val ≠ 255) →
      parse_line_delimited signedChar fuel (s ++ [d]) [d] [q]
          collapse false false strict =
        some (Except.ok [s, []])) := by
  simp only [List.length_append, List.length_singleton] at hfuel
  have hplain : ∀ c ∈ s, c ≠ 0 ∧ (false = false → c ≠ d) ∧ c ≠ q ∧
      (false = true → c ≠ backslash) :=
    fun _ hc => ⟨fun he => hs0 (he ▸ hc), fun _ he => hsd (he ▸ hc),
      fun he => hsq (he ▸ hc), fun h => Bool.noConfusion h⟩
  have hqq : scan signedChar d q collapse false false strict
      (fuel - s.length - 1) [q, q] [] [s] false = some (Except.ok [s]) := by
    by_cases hq0 : q = 0
    · rw [hq0, scan_nul _ _ _ _ _ _ _ _ _ _ _ _ (by omega), finish_not_in_string]
      simp
    · rw [scan_open signedChar d q collapse false false strict _ _ _ _ (by omega) hq0
          hdq.symm (fun h => Bool.noConfusion h),
        scan_close signedChar d q collapse false false strict _ _ _ _ (by omega) hq0
          (fun h => Bool.noConfusion h),
        scan_nil _ _ _ _ _ _ _ _ _ _ _ (by omega), finish_not_in_string]
      simp
  constructor
  · have hline : s ++ [d] ++ [q] ++ [q] = s ++ d :: [q, q] := by simp
    simp only [parse_line_delimited, firstChar, hline]
    rw [scan_plain signedChar d q collapse false false strict false s fuel _ [] []
        (by omega) hplain]
    cases collapse with
    | false =>
      rw [scan_delim signedChar d q false false strict _ [q, q] _ _ (by omega) hd0,
        if_neg (by simp)]
      simpa using hqq
    | true =>
      rw [scan_delim_collapse signedChar d q false false strict _ [q, q] [q, q] _ _
          (by omega) hd0
          (skipDelims_stop signedChar d _ _ (by omega) (peek_cons_ne signedChar d q [q] hdq.symm)),
        if_neg (by simp)]
      simpa using hqq
  · intro hexit
    simp only [parse_line_delimited, firstChar]
    rw [scan_plain signedChar d q collapse false false strict false s fuel _ [] []
        (by omega) hplain]
    cases collapse with
    | false =>
      rw [scan_delim signedChar d q false false strict _ [] _ _ (by omega) hd0, if_pos rfl,
        scan_nil _ _ _ _ _ _ _ _ _ _ _ (by omega), finish_not_in_string]
      simp
    | true =>
      have hnil : peek [] ≠ charToInt signedChar d := by
        intro hp
        have h := (peek_nil_eq_iff signedChar d).1 hp
        exact hexit rfl h.1 h.2
      rw [scan_delim_collapse signedChar d q false false strict _ [] [] _ _ (by omega) hd0
          (skipDelims_stop signedChar d _ _ (by omega) hnil),
        if_pos rfl, scan_nil _ _ _ _ _ _ _ _ _ _ _ (by omega), finish_not_in_string]
      simp

/-- Witness for C17: `a,""` yields `[a]` and `a,` yields `[a, empty]`. -/
theorem C17_empty_quoted_last_field_amended_witness :
    (str "a" ++ [44] ++ [34] ++ [34] = str "a,\"\"") ∧
    parse_line_delimited true 5 (str "a" ++ [44] ++ [34] ++ [34]) [44] [34]
        false false false false = some (Except.ok [str "a"]) ∧
    parse_line_delimited true 5 (str "a" ++ [44]) [44] [34]
        false false false false = some (Except.ok [str "a", []]) :=
  ⟨by decide,
    (C17_empty_quoted_last_field_amended true 44 34 false false (str "a") 5
      (by decide) (by decide) (by decide) (by decide) (by decide) (by decide)).1,
    (C17_empty_quoted_last_field_amended true 44 34 false false (str "a") 5
      (by decide) (by decide) (by decide) (by decide) (by decide) (by decide)).2
      (fun h => Bool.noConfusion h)⟩

/-- Counterexample to C17 as stated: with the delimiter NUL the scan stops at
the delimiter; the line `NUL q q` (with `s` empty) yields no field instead of
`[s]`, and `a NUL` yields `[a]` instead of `[a, empty]`. -/
theorem C17_empty_quoted_last_field_counterexample :
    (parse_line_delimited true 4 ([] ++ [0] ++ [34] ++ [34]) [0] [34]
        false false false false = some (Except.ok []) ∧
      (some (Except.ok []) : Option (Except String (List (List Byte)))) ≠
        some (Except.ok [[]])) ∧
    (parse_line_delimited true 3 (str "a" ++ [0]) [0] [34]
        false false false false = some (Except.ok [str "a"]) ∧
      (some (Except.ok [str "a"]) : Option (Except String (List (List Byte)))) ≠
        some (Except.ok [str "a", []])) :=
  ⟨⟨rfl, by simp⟩, ⟨rfl, by simp⟩⟩

/-! ## Strict mode only rejects -/

theorem finish_strict_ok (field : List Byte) (out : List (List Byte)) (in_string : Bool)
    (r : List (List Byte)) (h : finish true field out in_string = Except.ok r) :
    finish false field out in_string = Except.ok r := by
  cases in_string with
  | true => simp [finish] at h
  | false => simpa [finish] using h

/-- A scan that succeeds with `strict` returns the same fields without it. -/
theorem scan_strict_ok (signedChar : Bool) (d q : Byte)
    (collapse backslash_escape double_escape : Bool) :
    ∀ (fuel : Nat) (s field : List Byte) (out : List (List Byte)) (in_string : Bool)
      (r : List (List Byte)),
      scan signedChar d q collapse backslash_escape double_escape true
        fuel s field out in_string = some (Except.ok r) →
      scan signedChar d q collapse backslash_escape double_escape false
        fuel s field out in_string = some (Except.ok r) := by
  intro fuel
  induction fuel with
  | zero => intro s field out in_string r h; simp [scan] at h
  | succ n ih =>
    intro s field out in_string r h
    cases s with
    | nil =>
      simp only [scan, Option.some.injEq] at h ⊢
      exact finish_strict_ok field out in_string r h
    | cons c rest =>
      simp only [scan] at h ⊢
      split
      · rename_i hc0
        simp only [hc0, if_true, Option.some.injEq] at h ⊢
        exact finish_strict_ok field out in_string r h
      · rename_i hc0
        simp only [hc0, if_false] at h
        split
        · rename_i hdelim
          simp only [hdelim, if_true] at h
          split
          · rename_i hskip
            simp only [hskip] at h
            cases h
          · rename_i rest1 hskip
            simp only [hskip] at h
            exact ih _ _ _ _ r h
        · rename_i hdelim
          simp only [hdelim, if_false] at h
          split
          · rename_i hcq
            simp only [hcq, if_true] at h
            split
            · rename_i hdbl
              simp only [hdbl, if_true] at h
              exact ih _ _ _ _ r h
            · rename_i hdbl
              simp only [hdbl, if_false] at h
              exact ih _ _ _ _ r h
          · rename_i hcq
            simp only [hcq, if_false] at h
            split
            · rename_i hesc
              simp only [hesc, if_true] at h
              cases rest with
              | nil => simp at h
              | cons e rest1 => exact ih _ _ _ _ r h
            · rename_i hesc
              simp only [hesc, if_false] at h
              exact ih _ _ _ _ r h

/-- C18: for every line, delimiter, quote and value of `collapse`,
`backslash_escape` and `double_escape`, if the splitter with `strict = true`
succeeds, then with `strict = false` it returns exactly the same fields. -/
theorem C18_strict_only_rejects (signedChar : Bool) (fuel : Nat) (line : List Byte)
    (d q : Byte) (collapse backslash_escape double_escape : Bool)
    (fields : List (List Byte))
    (h : parse_line_delimited signedChar fuel line [d] [q]
        collapse backslash_escape double_escape true = some (Except.ok fields)) :
    parse_line_delimited signedChar fuel line [d] [q]
        collapse backslash_escape double_escape false = some (Except.ok fields) :=
  scan_strict_ok signedChar d q collapse backslash_escape double_escape fuel line [] [] false
    fields h

/-- Witness for C18: the line `"a,b",c`, accepted in strict mode. -/
theorem C18_strict_only_rejects_witness :
    parse_line_delimited true 8 (str "\"a,b\",c") [44] [34] false true true true =
      some (Except.ok [str "a,b", str "c"]) ∧
    parse_line_delimited true 8 (str "\"a,b\",c") [44] [34] false true true false =
      some (Except.ok [str "a,b", str "c"]) :=
  ⟨rfl, C18_strict_only_rejects true 8 (str "\"a,b\",c") 44 34 false true true
    [str "a,b", str "c"] rfl⟩

/-! ## A doubled quote outside a quoted region -/

/-- C19, as amended: with `double_escape = true`, `d ≠ q`, the quote not NUL and
a 7-bit character (or `char` unsigned), for all `s`, `t` without delimiter,
quote, backslash and NUL, splitting `s q q t` yields exactly `[s ++ q ++ t]`;
no quoted region is opened. -/
theorem C19_double_escape_unquoted_amended (signedChar : Bool) (d q : Byte)
    (collapse backslash_escape strict : Bool) (s t : List Byte) (fuel : Nat)
    (hdq : d ≠ q) (hq0 : q ≠ 0) (hq7 : signedChar = true → q.val < 128)
    (hsd : d ∉ s) (hsq : q ∉ s) (hsb : backslash ∉ s) (hs0 : (0 : Byte) ∉ s)
    (htd : d ∉ t) (htq : q ∉ t) (htb : backslash ∉ t) (ht0 : (0 : Byte) ∉ t)
    (hfuel : (s ++ [q] ++ [q] ++ t).length < fuel) :
    parse_line_delimited signedChar fuel (s ++ [q] ++ [q] ++ t) [d] [q]
        collapse backslash_escape true strict =
      some (Except.ok [s ++ [q] ++ t]) := by
  simp only [List.length_append, List.length_singleton] at hfuel
  have hline : s ++ [q] ++ [q] ++ t = s ++ q :: q :: t := by simp
  have hne : [] ++ s ++ [q] ++ t ≠ [] := by simp
  simp only [parse_line_delimited, firstChar, hline]
  rw [scan_plain signedChar d q collapse backslash_escape true strict false s fuel _ [] []
      (by omega) (plain_of_not_mem d q backslash_escape false s hs0 hsd hsq hsb),
    scan_doubled signedChar d q collapse backslash_escape true strict _ _ _ _ false (by omega)
      hq0 (fun _ => hdq.symm) rfl ((peek_cons_eq_iff signedChar q q t).2 ⟨rfl, hq7⟩)]
  simp only [advance]
  rw [scan_plain_end signedChar d q collapse backslash_escape true strict false t _ _ _
      (by omega) (plain_of_not_mem d q backslash_escape false t ht0 htd htq htb),
    finish_nonempty strict _ _ hne]
  simp

/-- Witness for C19: the two-character line `""` yields the single field `"`. -/
theorem C19_double_escape_unquoted_amended_witness :
    ([] ++ [34] ++ [34] ++ [] = str "\"\"") ∧
    parse_line_delimited true 3 ([] ++ [34] ++ [34] ++ []) [44] [34]
        false false true false = some (Except.ok [[] ++ [34] ++ []]) :=
  ⟨by decide,
    C19_double_escape_unquoted_amended true 44 34 false false false [] [] 3
      (by decide) (by decide) (by decide) (by decide) (by decide) (by decide) (by decide)
      (by decide) (by decide) (by decide) (by decide) (by decide)⟩

/-- Counterexample to C19 as stated: with the quote NUL the scan stops at the
first quote and `q q` yields no field; and where `char` is signed a quote byte
of 128 or more never compares equal to `peek()`, so `a q q b` opens and closes
a region and yields `ab` without the quote. -/
theorem C19_double_escape_unquoted_counterexample :
    (parse_line_delimited true 3 ([] ++ [0] ++ [0] ++ []) [44] [0]
        false false true false = some (Except.ok []) ∧
      (some (Except.ok []) : Option (Except String (List (List Byte)))) ≠
        some (Except.ok [[] ++ [0] ++ []])) ∧
    (parse_line_delimited true 5 (str "a" ++ [171] ++ [171] ++ str "b") [44] [171]
        false false true false = some (Except.ok [str "ab"]) ∧
      (some (Except.ok [str "ab"]) : Option (Except String (List (List Byte)))) ≠
        some (Except.ok [str "a" ++ [171] ++ str "b"])) :=
  ⟨⟨rfl, by simp⟩, ⟨rfl, by simp [str]⟩⟩

/-! ## A NUL character ends the scan -/

/-- C20: for every configuration, every `s` without delimiter, quote, backslash
and NUL and every `t` whatsoever, splitting `s ++ [NUL] ++ t` gives the same
result as splitting `s` alone: `[s]` if `s` is non-empty, the empty sequence
otherwise. -/
theorem C20_nul_ends_scan (signedChar : Bool) (d q : Byte)
    (collapse backslash_escape double_escape strict : Bool) (s t : List Byte) (fuel : Nat)
    (hsd : d ∉ s) (hsq : q ∉ s) (hsb : backslash ∉ s) (hs0 : (0 : Byte) ∉ s)
    (hfuel : (s ++ [0] ++ t).length < fuel) :
    parse_line_delimited signedChar fuel (s ++ [0] ++ t) [d] [q]
        collapse backslash_escape double_escape strict =
      some (Except.ok (if s = [] then [] else [s])) ∧
    parse_line_delimited signedChar fuel s [d] [q]
        collapse backslash_escape double_escape strict =
      some (Except.ok (if s = [] then [] else [s])) := by
  simp only [List.length_append, List.length_singleton] at hfuel
  have hplain := plain_of_not_mem d q backslash_escape false s hs0 hsd hsq hsb
  have hline : s ++ [0] ++ t = s ++ 0 :: t := by simp
  simp only [parse_line_delimited, firstChar, hline]
  constructor
  · rw [scan_plain signedChar d q collapse backslash_escape double_escape strict false s fuel
        _ [] [] (by omega) hplain,
      scan_nul _ _ _ _ _ _ _ _ _ _ _ _ (by omega), finish_not_in_string]
    simp
  · rw [scan_plain_end signedChar d q collapse backslash_escape double_escape strict false s
        _ _ _ (by omega) hplain, finish_not_in_string]
    simp

/-- Witness for C20: in strict mode, `ab NUL "c` yields `[ab]`; the open quote
after the NUL is never read. -/
theorem C20_nul_ends_scan_witness :
    parse_line_delimited true 6 (str "ab" ++ [0] ++ str "\"c") [44] [34]
        true true true true = some (Except.ok (if str "ab" = [] then [] else [str "ab"])) ∧
    parse_line_delimited true 6 (str "ab") [44] [34]
        true true true true = some (Except.ok (if str "ab" = [] then [] else [str "ab"])) :=
  C20_nul_ends_scan true 44 34 true true true true (str "ab") (str "\"c") 6
    (by decide) (by decide) (by decide) (by decide) (by decide)

end DelimitedLine
